import Mathlib

/- Verification of the change-detection and diff engine of the code-squad
   editor add-on: the terminal-output activity classifier
   (TerminalStatusDetector), the per-terminal status tracker
   (DetectThreadStatusUseCase), the line diff engine (DiffService) and the
   diff orchestrator (GenerateDiffUseCase), shallowly embedded from the
   TypeScript source. -/

namespace CodeSquad

/-! JavaScript string primitives used by the source, embedded on `List Char`. -/

/-- The JavaScript whitespace class: the characters matched by the regex
class `\s` and trimmed by `String.prototype.trim`. -/
def jsWs (c : Char) : Bool :=
  c = ' ' || c = '\t' || c = '\n' || c = '\r' || c = '\x0b' || c = '\x0c' ||
  c = ' ' || c = ' ' || (0x2000 ≤ c.toNat && c.toNat ≤ 0x200a) ||
  c = ' ' || c = ' ' || c = ' ' || c = ' ' ||
  c = '　' || c = '﻿'

/-- JS `s.split('\n')` on char lists: split at every newline, keeping empty
segments (`"".split('\n')` is `[""]`, `"a\n".split('\n')` is `["a",""]`). -/
def splitNl : List Char → List (List Char)
  | [] => [[]]
  | c :: cs =>
    if c = '\n' then [] :: splitNl cs
    else
      match splitNl cs with
      | [] => [[c]]
      | h :: t => (c :: h) :: t

/-- JS `s.split('\n')` on strings. -/
def jsSplitNl (s : String) : List String :=
  (splitNl s.data).map (fun l => String.mk l)

/-- JS `s.startsWith(pre)`. -/
def jsStartsWith (s pre : String) : Bool :=
  pre.data.isPrefixOf s.data

/-- JS `parts.join('\n')` on char lists. -/
def joinNlL : List (List Char) → List Char
  | [] => []
  | [x] => x
  | x :: y :: t => x ++ '\n' :: joinNlL (y :: t)

/-- JS `parts.join('\n')` on strings. -/
def joinNl (xs : List String) : String :=
  String.mk (joinNlL (xs.map String.data))

/-- JS `s.trim()`: strip leading and trailing JS whitespace. -/
def jsTrim (s : String) : String :=
  String.mk (((s.data.dropWhile jsWs).reverse.dropWhile jsWs).reverse)

/-- Substring test: the embedding of an unanchored literal regex such as
`/Reading/` (true iff the literal occurs in the text). -/
def strContains (s sub : String) : Bool :=
  decide (sub.data <:+: s.data)

/-- JS `s.toLowerCase()`; the detector only compares ASCII letters
case-insensitively, for which per-char `Char.toLower` is exact. -/
def jsToLower (s : String) : String :=
  String.mk (s.data.map Char.toLower)

/-! The status detector (TerminalStatusDetector in the source). -/

/-- The agent activity states. -/
inductive AgentStatus
  | inactive
  | working
  | waiting
  | idle
deriving DecidableEq, Repr

/-- The agent-profile tags; the source's switch sends every tag other than
claude/codex/gemini to the generic table, embodied here by `generic`. -/
inductive AIType
  | claude
  | codex
  | gemini
  | generic
deriving DecidableEq, Repr

/-- A pattern group of the detector table (the StatusPattern interface): a
status, the group's patterns (each regex embedded as a decidable test on the
ANSI-stripped text), and the group's priority. -/
structure StatusPattern where
  status : AgentStatus
  patterns : List (String → Bool)
  priority : Nat

/-- Embedding of an unanchored case-sensitive literal regex. -/
def containsTest (sub : String) : String → Bool :=
  fun s => strContains s sub

/-- Embedding of an unanchored literal regex with the `i` flag; `sub` is
given in lowercase. -/
def ciContainsTest (sub : String) : String → Bool :=
  fun s => strContains (jsToLower s) sub

/-- The spinner glyphs of the regex class used by every working group. -/
def spinnerChars : List Char := "●◐◓◑◒⠋⠙⠹⠸⠼⠴⠦⠧⠇⠏".data

/-- Embedding of the spinner-glyph character class regex. -/
def spinnerTest : String → Bool :=
  fun s => s.data.any (fun c => spinnerChars.contains c)

/-- Embedding of `/^>\s*$/m`: some line is `>` followed only by whitespace.
With the `m` flag the regex matches exactly when such a line exists. -/
def promptLineTest : String → Bool :=
  fun s => (splitNl s.data).any (fun l =>
    match l with
    | '>' :: rest => rest.all jsWs
    | _ => false)

/-- Embedding of `/\$\s*$/m`: some line consists of anything, then a dollar
sign, then only whitespace up to the line end. -/
def dollarLineTest : String → Bool :=
  fun s => (splitNl s.data).any (fun l =>
    match l.reverse.dropWhile jsWs with
    | '$' :: _ => true
    | _ => false)

/-- Characters matched by the JS regex `.` (everything except the four line
terminators). -/
def dotChar (c : Char) : Bool :=
  !(c = '\n' || c = '\r' || c = ' ' || c = ' ')

/-- Match of `? .+$` at one position: a question mark and a space followed
by at least one non-terminator character running to the end of the text. -/
def qmarkAt : List Char → Bool
  | '?' :: ' ' :: c :: cs => dotChar c && cs.all dotChar
  | _ => false

/-- Scan for `/\? .+$/` (no `m` flag): try the match at every position. -/
def qmarkScan : List Char → Bool
  | [] => false
  | l@(_ :: cs) => qmarkAt l || qmarkScan cs

/-- Embedding of the `/\? .+$/` waiting pattern. -/
def qmarkPromptTest : String → Bool :=
  fun s => qmarkScan s.data

/-- Scan for `/\d+ tokens/`: a digit immediately followed by the literal
` tokens` (existence of a one-digit-led match is equivalent). -/
def tokensScan : List Char → Bool
  | [] => false
  | c :: cs => (c.isDigit && " tokens".data.isPrefixOf cs) || tokensScan cs

/-- Embedding of the `/\d+ tokens/` idle pattern. -/
def tokensTest : String → Bool :=
  fun s => tokensScan s.data

/-- Scan for `pre` + `\s*` + `post` where `post` starts with a non-whitespace
character, so the whitespace run between them is forced to be maximal. -/
def wsSeqScan (pre post : List Char) : List Char → Bool
  | [] => false
  | c :: cs =>
    (pre.isPrefixOf (c :: cs) &&
      post.isPrefixOf (((c :: cs).drop pre.length).dropWhile jsWs)) ||
    wsSeqScan pre post cs

/-- Embedding of regexes of the shape `/A\s*B/` (Codex prompt hints). -/
def wsSeqTest (pre post : String) : String → Bool :=
  fun s => wsSeqScan pre.data post.data s.data

/-- CLAUDE_PATTERNS from the source, each regex embedded as a test. -/
def CLAUDE_PATTERNS : List StatusPattern :=
  [ { status := .waiting
      priority := 3
      patterns :=
        [ containsTest "Enter to select"
        , ciContainsTest "(y/n)"
        , ciContainsTest "[y/n]"
        , ciContainsTest "[y/n]"
        , containsTest "Tab/Arrow keys"
        , containsTest "Press Enter to continue"
        , qmarkPromptTest
        , ciContainsTest "do you want to proceed?" ] }
  , { status := .working
      priority := 2
      patterns :=
        [ spinnerTest
        , containsTest "Reading"
        , containsTest "Writing"
        , containsTest "Searching"
        , containsTest "Analyzing"
        , containsTest "Thinking"
        , containsTest "Planning" ] }
  , { status := .idle
      priority := 1
      patterns :=
        [ promptLineTest
        , containsTest "-- INSERT --"
        , containsTest "-- NORMAL --"
        , tokensTest ] } ]

/-- CODEX_PATTERNS from the source. -/
def CODEX_PATTERNS : List StatusPattern :=
  [ { status := .waiting
      priority := 3
      patterns :=
        [ ciContainsTest "(y/n)"
        , ciContainsTest "[y/n]"
        , qmarkPromptTest
        , ciContainsTest "confirm" ] }
  , { status := .working
      priority := 2
      patterns :=
        [ spinnerTest
        , containsTest "..."
        , ciContainsTest "working"
        , ciContainsTest "running"
        , ciContainsTest "executing" ] }
  , { status := .idle
      priority := 1
      patterns :=
        [ wsSeqTest "⮐" "send"
        , wsSeqTest "^J" "newline"
        , wsSeqTest "^T" "transcript"
        , wsSeqTest "^C" "quit"
        , containsTest "To get started"
        , containsTest "describe a task"
        , containsTest "OpenAI Codex"
        , promptLineTest
        , dollarLineTest ] } ]

/-- GEMINI_PATTERNS from the source. -/
def GEMINI_PATTERNS : List StatusPattern :=
  [ { status := .waiting
      priority := 3
      patterns :=
        [ ciContainsTest "(y/n)"
        , ciContainsTest "[y/n]"
        , qmarkPromptTest
        , ciContainsTest "confirm" ] }
  , { status := .working
      priority := 2
      patterns :=
        [ spinnerTest
        , containsTest "..."
        , ciContainsTest "thinking"
        , ciContainsTest "processing"
        , ciContainsTest "generating" ] }
  , { status := .idle
      priority := 1
      patterns :=
        [ containsTest "Type your message"
        , containsTest "@path/to/file"
        , containsTest "no sandbox"
        , containsTest "GEMINI.md"
        , containsTest "Tips for getting started"
        , promptLineTest
        , dollarLineTest ] } ]

/-- GENERIC_PATTERNS from the source. -/
def GENERIC_PATTERNS : List StatusPattern :=
  [ { status := .waiting
      priority := 3
      patterns :=
        [ ciContainsTest "(y/n)"
        , ciContainsTest "[y/n]"
        , qmarkPromptTest ] }
  , { status := .working
      priority := 2
      patterns :=
        [ spinnerTest
        , containsTest "..." ] }
  , { status := .idle
      priority := 1
      patterns :=
        [ promptLineTest
        , dollarLineTest ] } ]

/-- getPatternsForAI: the switch over the profile tag; the default case of
the switch is the generic table. -/
def getPatternsForAI : AIType → List StatusPattern
  | .claude => CLAUDE_PATTERNS
  | .codex => CODEX_PATTERNS
  | .gemini => GEMINI_PATTERNS
  | .generic => GENERIC_PATTERNS

/-- Characters of the `[0-9;]` parameter class of the ANSI regex. -/
def isAnsiParam (c : Char) : Bool := c.isDigit || c = ';'

/-- stripAnsiCodes: `text.replace(/\x1B\[[0-9;]*[a-zA-Z]/g, '')`, scanning
left to right and removing each escape-bracket-params-letter sequence.
`Char.isAlpha` is exactly the `[a-zA-Z]` class. The first argument is fuel
(structural recursion); every recursive call consumes at least one character
of the text, so fuel equal to the text length always suffices. -/
def stripAnsiFuel : Nat → List Char → List Char
  | 0, l => l
  | _ + 1, [] => []
  | fuel + 1, '\x1b' :: '[' :: rest =>
    (match rest.dropWhile isAnsiParam with
      | d :: rest2 =>
        if d.isAlpha then stripAnsiFuel fuel rest2
        else '\x1b' :: stripAnsiFuel fuel ('[' :: rest)
      | [] => '\x1b' :: stripAnsiFuel fuel ('[' :: rest))
  | fuel + 1, c :: cs => c :: stripAnsiFuel fuel cs

/-- stripAnsiCodes on strings. -/
def stripAnsiCodes (s : String) : String :=
  String.mk (stripAnsiFuel s.data.length s.data)

/-- Stable insertion of a group after all groups of priority ≥ its own:
building block of the descending stable sort. -/
def insertDesc (g : StatusPattern) : List StatusPattern → List StatusPattern
  | [] => [g]
  | h :: t => if g.priority ≤ h.priority then h :: insertDesc g t else g :: h :: t

/-- The source's `[...patterns].sort((a, b) => b.priority - a.priority)`:
a stable sort by descending priority (JS `Array.prototype.sort` is stable). -/
def sortDesc : List StatusPattern → List StatusPattern
  | [] => []
  | h :: t => insertDesc h (sortDesc t)

/-- Scan of the sorted groups: within a group, if any pattern matches the
cleaned text, return that group's status; otherwise continue. -/
def firstMatch (clean : String) : List StatusPattern → AgentStatus
  | [] => .inactive
  | g :: gs => if g.patterns.any (fun p => p clean) then g.status else firstMatch clean gs

/-- TerminalStatusDetector.detect. -/
def detect (t : AIType) (output : String) : AgentStatus :=
  firstMatch (stripAnsiCodes output) (sortDesc (getPatternsForAI t))

/-- The backwards scan of TerminalStatusDetector.detectFromBuffer, given the
buffer already reversed (newest line first). -/
def scanNewestFirst (t : AIType) : List String → AgentStatus
  | [] => .inactive
  | l :: ls =>
    match detect t l with
    | .inactive => scanNewestFirst t ls
    | st => st

/-- JS `lines.slice(-n)`: the last `n` elements. -/
def takeLast (n : Nat) (l : List String) : List String :=
  l.drop (l.length - n)

/-- TerminalStatusDetector.detectFromBuffer: scan newest-to-oldest for a
non-inactive classification; failing that, if the buffer has at least two
lines, classify the last three lines joined by a newline. -/
def detectFromBuffer (t : AIType) (lines : List String) : AgentStatus :=
  match scanNewestFirst t lines.reverse with
  | .inactive =>
    if lines.length ≥ 2 then
      detect t (joinNl (takeLast 3 lines))
    else .inactive
  | st => st

/-! The diff engine (DiffService in the source). -/

/-- Operation kinds of the computed line diff (the DiffEntry interface). -/
inductive DiffEntryType
  | equal
  | delete
  | insert
deriving DecidableEq, Repr

/-- One operation of the computed line diff. -/
structure DiffEntry where
  type : DiffEntryType
  line : String
deriving DecidableEq, Repr

/-- Line kinds of the structured diff (the DiffLine interface). -/
inductive DiffLineType
  | addition
  | deletion
  | context
deriving DecidableEq, Repr

/-- DiffLine; the optional TS fields become Option. -/
structure DiffLine where
  type : DiffLineType
  content : String
  oldLineNumber : Option Nat := none
  newLineNumber : Option Nat := none
deriving DecidableEq, Repr

/-- DiffHunk. -/
structure DiffHunk where
  header : String
  oldStart : Nat
  newStart : Nat
  lines : List DiffLine
deriving DecidableEq, Repr

/-- The stats record of DiffResult. -/
structure DiffStats where
  additions : Nat
  deletions : Nat
deriving DecidableEq, Repr

/-- DiffResult. -/
structure DiffResult where
  file : String
  hunks : List DiffHunk
  stats : DiffStats
deriving DecidableEq, Repr

/-- JS `s.substring(1)`. -/
def jsDrop1 (s : String) : String :=
  String.mk (s.data.drop 1)

/-- Value of a maximal digit run, as read by `parseInt(_, 10)` (line numbers
stay far below the precision limit of a JS number). -/
def digitsToNat (ds : List Char) : Nat :=
  ds.foldl (fun n c => n * 10 + (c.toNat - '0'.toNat)) 0

/-- Consume one optional comma (the `,?` of the hunk-header regex; when a
comma is present no successful match leaves it unconsumed). -/
def dropComma : List Char → List Char
  | ',' :: r => r
  | r => r

/-- Try the hunk-header regex `@@ -(\d+),?\d* \+(\d+),?\d* @@(.*)` at the
start of the text, returning the two captures (the trailing `(.*)` never
fails and is not used by the parser). -/
def hunkHeaderAt (l : List Char) : Option (Nat × Nat) :=
  match l with
  | '@' :: '@' :: ' ' :: '-' :: r1 =>
    let ds1 := r1.takeWhile Char.isDigit
    if ds1 = [] then none
    else
      match dropComma (r1.dropWhile Char.isDigit) |>.dropWhile Char.isDigit with
      | ' ' :: '+' :: r3 =>
        let ds2 := r3.takeWhile Char.isDigit
        if ds2 = [] then none
        else
          match dropComma (r3.dropWhile Char.isDigit) |>.dropWhile Char.isDigit with
          | ' ' :: '@' :: '@' :: _ => some (digitsToNat ds1, digitsToNat ds2)
          | _ => none
      | _ => none
  | _ => none

/-- Leftmost match of the (unanchored) hunk-header regex in the text. -/
def hunkHeaderSearch : List Char → Option (Nat × Nat)
  | [] => none
  | c :: cs =>
    match hunkHeaderAt (c :: cs) with
    | some r => some r
    | none => hunkHeaderSearch cs

/-- Hunk value used only to make list indexing total; parser invariants keep
every stored index in range. -/
def defaultHunk : DiffHunk :=
  { header := "", oldStart := 0, newStart := 0, lines := [] }

/-- State of the parseUnifiedDiff loop. In JS `hunks.push(currentHunk)`
stores a reference: lines appended to the current hunk later are visible in
the already-pushed array entry, and the same hunk object can be pushed twice
(when an `@@` line fails the header regex the old object stays current).
The embedding therefore keeps the hunks by creation index in `created`,
the open hunk as an index `curIdx`, and the push sequence `pushes`. -/
structure PUState where
  created : List DiffHunk
  curIdx : Option Nat
  pushes : List Nat
  oldLineNum : Nat
  newLineNum : Nat
  additions : Nat
  deletions : Nat
deriving DecidableEq, Repr

/-- Append a diff line to the hunk at creation index `i`. -/
def pushLineAt (hs : List DiffHunk) (i : Nat) (dl : DiffLine) : List DiffHunk :=
  List.modify (fun h => { h with lines := h.lines ++ [dl] }) i hs

/-- One iteration of the parseUnifiedDiff line loop. -/
def puStep (st : PUState) (line : String) : PUState :=
  if jsStartsWith line "diff --git" || jsStartsWith line "index " ||
      jsStartsWith line "---" || jsStartsWith line "+++" ||
      jsStartsWith line "\\" then
    st
  else if jsStartsWith line "@@" then
    let pushed :=
      match st.curIdx with
      | some i => st.pushes ++ [i]
      | none => st.pushes
    match hunkHeaderSearch line.data with
    | some (o, n) =>
      { st with
        pushes := pushed
        created := st.created ++ [{ header := line, oldStart := o, newStart := n, lines := [] }]
        curIdx := some st.created.length
        oldLineNum := o
        newLineNum := n }
    | none => { st with pushes := pushed }
  else
    match st.curIdx with
    | none => st
    | some i =>
      if jsStartsWith line "+" then
        { st with
          created := pushLineAt st.created i
            { type := .addition, content := jsDrop1 line, newLineNumber := some st.newLineNum }
          newLineNum := st.newLineNum + 1
          additions := st.additions + 1 }
      else if jsStartsWith line "-" then
        { st with
          created := pushLineAt st.created i
            { type := .deletion, content := jsDrop1 line, oldLineNumber := some st.oldLineNum }
          oldLineNum := st.oldLineNum + 1
          deletions := st.deletions + 1 }
      else
        { st with
          created := pushLineAt st.created i
            { type := .context
              content := if jsStartsWith line " " then jsDrop1 line else line
              oldLineNumber := some st.oldLineNum
              newLineNumber := some st.newLineNum }
          oldLineNum := st.oldLineNum + 1
          newLineNum := st.newLineNum + 1 }

/-- Initial parser state. -/
def initPU : PUState :=
  { created := [], curIdx := none, pushes := [], oldLineNum := 0, newLineNum := 0,
    additions := 0, deletions := 0 }

/-- Push sequence after the trailing `if (currentHunk) hunks.push(currentHunk)`. -/
def finalPushes (st : PUState) : List Nat :=
  match st.curIdx with
  | some i => st.pushes ++ [i]
  | none => st.pushes

/-- DiffService.parseUnifiedDiff. -/
def parseUnifiedDiff (file diffText : String) : DiffResult :=
  if diffText = "" || jsTrim diffText = "" then
    { file := file, hunks := [], stats := { additions := 0, deletions := 0 } }
  else
    let fin := (jsSplitNl diffText).foldl puStep initPU
    { file := file
      hunks := (finalPushes fin).map (fun i => fin.created.getD i defaultHunk)
      stats := { additions := fin.additions, deletions := fin.deletions } }

/-- Decimal digits of a number, most significant first, prepended to `acc`;
the first argument is fuel (a number has at most as many digits as its
value, so fuel `n` always suffices for `n`). -/
def natToStrAux : Nat → Nat → List Char → List Char
  | 0, _, acc => acc
  | fuel + 1, n, acc =>
    if n = 0 then acc
    else natToStrAux fuel (n / 10) (Nat.digitChar (n % 10) :: acc)

/-- JS number-to-string for a nonnegative integer (template interpolation). -/
def natToStr (n : Nat) : String :=
  if n = 0 then "0" else String.mk (natToStrAux n n [])

/-- JS number-to-string for an integer. -/
def intToStr : Int → String
  | .ofNat n => natToStr n
  | .negSucc n => "-" ++ natToStr (n + 1)

/-- The addition lines the parser produces for a run of `+`-prefixed lines
starting at new-side line number `nl`: one addition DiffLine per input line,
with consecutive newLineNumber values. Used to state the new-file round trip. -/
def newFileAddLines (nl : Nat) : List String → List DiffLine
  | [] => []
  | l :: t => { type := .addition, content := l, newLineNumber := some nl } :: newFileAddLines (nl + 1) t

/-- Record of one flushed hunk of formatAsUnifiedDiff, instrumented with
ghost fields: `trueOld`/`trueNew` record the 1-based old/new line numbers at
which the hunk opened (its first delete/insert), which the source does not
track; `hdrOld`/`hdrNew` are the numbers the source actually emits in the
header (both are the shared `hunkStart` variable). -/
structure HunkRec where
  hdrOld : Int
  hdrNew : Int
  oldCount : Nat
  newCount : Nat
  trueOld : Nat
  trueNew : Nat
  lines : List String
deriving DecidableEq, Repr

/-- State of the formatAsUnifiedDiff loop, plus the ghost fields `openTrue`
(true starts of the currently open hunk) and `flushed` (records of the hunks
flushed so far); the source fields are `result`, `hunkStart`, `hunkLines`,
`oldLineNum`, `newLineNum`, `oldCount`, `newCount`. -/
structure FmtState where
  result : String
  hunkStart : Int
  hunkLines : List String
  oldLineNum : Nat
  newLineNum : Nat
  oldCount : Nat
  newCount : Nat
  openTrue : Option (Nat × Nat)
  flushed : List HunkRec
deriving DecidableEq, Repr

/-- The flushHunk closure: emit header and lines when the hunk is non-empty;
reset `hunkLines` and the counts but (as in the source) not `hunkStart`. -/
def flushFmt (s : FmtState) : FmtState :=
  if s.hunkLines = [] then s
  else
    { s with
      result := s.result ++ "@@ -" ++ intToStr s.hunkStart ++ "," ++ natToStr s.oldCount ++
        " +" ++ intToStr s.hunkStart ++ "," ++ natToStr s.newCount ++ " @@\n" ++
        joinNl s.hunkLines ++ "\n"
      hunkLines := []
      oldCount := 0
      newCount := 0
      openTrue := none
      flushed := s.flushed ++
        [{ hdrOld := s.hunkStart, hdrNew := s.hunkStart,
           oldCount := s.oldCount, newCount := s.newCount,
           trueOld := (s.openTrue.getD (0, 0)).1, trueNew := (s.openTrue.getD (0, 0)).2,
           lines := s.hunkLines }] }

/-- Count of context (space-prefixed) lines of an open hunk — the source's
`hunkLines.filter(l => l.startsWith(' ')).length`. -/
def ctxCount (ls : List String) : Nat :=
  (ls.filter (fun l => jsStartsWith l " ")).length

/-- One iteration of the formatAsUnifiedDiff entry loop. -/
def fmtStep (s : FmtState) (e : DiffEntry) : FmtState :=
  match e.type with
  | .equal =>
    let s1 :=
      if s.hunkLines = [] then s
      else
        let s2 := { s with
          hunkLines := s.hunkLines ++ [" " ++ e.line]
          oldCount := s.oldCount + 1
          newCount := s.newCount + 1 }
        if ctxCount s2.hunkLines ≥ 3 then flushFmt s2 else s2
    { s1 with oldLineNum := s1.oldLineNum + 1, newLineNum := s1.newLineNum + 1 }
  | .delete =>
    { s with
      hunkStart := if s.hunkStart = -1 then (s.oldLineNum : Int) else s.hunkStart
      hunkLines := s.hunkLines ++ ["-" ++ e.line]
      oldCount := s.oldCount + 1
      oldLineNum := s.oldLineNum + 1
      openTrue := if s.hunkLines = [] then some (s.oldLineNum, s.newLineNum) else s.openTrue }
  | .insert =>
    { s with
      hunkStart := if s.hunkStart = -1 then (s.newLineNum : Int) else s.hunkStart
      hunkLines := s.hunkLines ++ ["+" ++ e.line]
      newCount := s.newCount + 1
      newLineNum := s.newLineNum + 1
      openTrue := if s.hunkLines = [] then some (s.oldLineNum, s.newLineNum) else s.openTrue }

/-- Initial formatter state. -/
def initFmt : FmtState :=
  { result := "", hunkStart := -1, hunkLines := [], oldLineNum := 1, newLineNum := 1,
    oldCount := 0, newCount := 0, openTrue := none, flushed := [] }

/-- Formatter state after the entry loop, before the final flush. -/
def fmtSteps (diff : List DiffEntry) : FmtState :=
  diff.foldl fmtStep initFmt

/-- Formatter state after the final flush. -/
def fmtRun (diff : List DiffEntry) : FmtState :=
  flushFmt (fmtSteps diff)

/-- DiffService.formatAsUnifiedDiff (renderUnifiedDiff of the spec). -/
def formatAsUnifiedDiff (diff : List DiffEntry) : String :=
  (fmtRun diff).result

/-- The dp recurrence of DiffService.longestCommonSubsequence, stated on
reversed prefixes: `lcsLenR ra rb = dp[i][j]` where `ra` and `rb` are the
reversed length-`i` and length-`j` prefixes of the inputs, so the head of
`ra` is `a[i-1]`; rows and columns 0 of the table are 0. -/
def lcsLenR : List String → List String → Nat
  | [], _ => 0
  | _ :: _, [] => 0
  | a :: ra, b :: rb =>
    if a = b then lcsLenR ra rb + 1
    else max (lcsLenR ra (b :: rb)) (lcsLenR (a :: ra) rb)
termination_by ra rb => ra.length + rb.length

/-- The backtrack loop of DiffService.longestCommonSubsequence on reversed
prefixes: on equal heads (the last elements of the prefixes) the element is
kept and unshifted onto the front of the result (hence appended at the end
here); otherwise the loop moves to whichever of `dp[i-1][j]`, `dp[i][j-1]`
is larger, ties dropping from `b` (`j--`). -/
def lcsBackR : List String → List String → List String
  | [], _ => []
  | _ :: _, [] => []
  | a :: ra, b :: rb =>
    if a = b then lcsBackR ra rb ++ [a]
    else if lcsLenR ra (b :: rb) > lcsLenR (a :: ra) rb then lcsBackR ra (b :: rb)
    else lcsBackR (a :: ra) rb
termination_by ra rb => ra.length + rb.length

/-- DiffService.longestCommonSubsequence: dp table plus backtrack from
`(m, n)`, embedded as recursion on the reversed inputs. -/
def longestCommonSubsequence (a b : List String) : List String :=
  lcsBackR a.reverse b.reverse

/-- The emission loop of DiffService.computeDiff, walking the two inputs
against a common-subsequence list with indices embedded as list suffixes;
the branch structure mirrors the source's while loop exactly. -/
def computeDiffWalk : List String → List String → List String → List DiffEntry
  | o :: os, news, c :: cs =>
    if o = c then
      match news with
      | n :: ns =>
        if n = c then { type := .equal, line := o } :: computeDiffWalk os ns cs
        else { type := .insert, line := n } :: computeDiffWalk (o :: os) ns (c :: cs)
      | [] => { type := .delete, line := o } :: computeDiffWalk os [] (c :: cs)
    else { type := .delete, line := o } :: computeDiffWalk os news (c :: cs)
  | o :: os, news, [] => { type := .delete, line := o } :: computeDiffWalk os news []
  | [], n :: ns, lcs => { type := .insert, line := n } :: computeDiffWalk [] ns lcs
  | [], [], _ => []
termination_by olds news _ => olds.length + news.length

/-- DiffService.computeDiff (computeLineDiff of the spec). -/
def computeDiff (oldLines newLines : List String) : List DiffEntry :=
  computeDiffWalk oldLines newLines (longestCommonSubsequence oldLines newLines)

/-- DiffService.generateUnifiedDiff. -/
def generateUnifiedDiff (oldContent newContent : String) : String :=
  if oldContent = newContent then ""
  else
    let d := computeDiff (jsSplitNl oldContent) (jsSplitNl newContent)
    if d = [] then "" else formatAsUnifiedDiff d

/-- DiffService.generateNewFileDiff. -/
def generateNewFileDiff (content : String) : String :=
  if content = "" then ""
  else
    let lines := jsSplitNl content
    "@@ -0,0 +1," ++ natToStr lines.length ++ " @@ New file\n" ++
      joinNl (lines.map (fun l => "+" ++ l))

/-- DiffService.generateNewFileStructuredDiff. -/
def generateNewFileStructuredDiff (file content : String) : DiffResult :=
  parseUnifiedDiff file (generateNewFileDiff content)

/-- DiffService.generateStructuredDiff. -/
def generateStructuredDiff (file oldContent newContent : String) : DiffResult :=
  parseUnifiedDiff file (generateUnifiedDiff oldContent newContent)

/-- Modelled from the spec: the deleted-file diff text generator backing
generateDeletedFileStructuredDiff, which GenerateDiffUseCase calls but whose
definition is absent from the sources provided — "A symmetric deleted-file
diff (all lines as deletions, empty new side)", mirroring generateNewFileDiff
with every content line emitted as a deletion. -/
def generateDeletedFileDiff (content : String) : String :=
  if content = "" then ""
  else
    let lines := jsSplitNl content
    "@@ -1," ++ natToStr lines.length ++ " +0,0 @@ Deleted file\n" ++
      joinNl (lines.map (fun l => "-" ++ l))

/-- Modelled from the spec: generateDeletedFileStructuredDiff, the structured
counterpart (parse of the synthetic deleted-file diff text), symmetric to
generateNewFileStructuredDiff. -/
def generateDeletedFileStructuredDiff (file content : String) : DiffResult :=
  parseUnifiedDiff file (generateDeletedFileDiff content)

/-! The per-terminal status tracker: the canonical hybrid variant
(DetectThreadStatusUseCase with output buffer, of the sources), and the
immediate-only variant (src/application/useCases/DetectThreadStatusUseCase.ts)
used by the C10 invariant. Timers are embedded as generation ids: arming
takes a fresh generation, clearTimeout drops it, and a timer can fire only
while its generation is still the armed one. Date.now() is passed in as
`now`. -/

/-- The detector dependency of the tracker (the ITerminalStatusDetector
port, injected through the constructor). -/
structure Detector where
  detect : AIType → String → AgentStatus
  detectFromBuffer : AIType → List String → AgentStatus

/-- The concrete TerminalStatusDetector as a port value. -/
def terminalStatusDetector : Detector :=
  { detect := detect, detectFromBuffer := detectFromBuffer }

/-- TerminalState of the hybrid tracker: status, last-update timestamp,
pending idle timer (generation id and the delay it was armed with), and the
output buffer. -/
structure TermState where
  status : AgentStatus
  lastUpdate : Nat
  idleTimer : Option (Nat × Nat)
  outputBuffer : List String
deriving DecidableEq, Repr

/-- Whole-tracker state: the per-terminal map, the chronological list of
status-change notifications delivered so far (the source invokes every
registered callback once per actual transition), and the next fresh timer
generation. -/
structure Tracker where
  states : List (String × TermState)
  events : List (String × AgentStatus)
  nextTimer : Nat
deriving DecidableEq, Repr

/-- A tracker that has observed nothing. -/
def emptyTracker : Tracker :=
  { states := [], events := [], nextTimer := 0 }

/-- Map.get of the per-terminal map. -/
def lookupState {α : Type} (m : List (String × α)) (id : String) : Option α :=
  (m.find? (fun p => decide (p.1 = id))).map (fun p => p.2)

/-- Map.set of the per-terminal map. -/
def setState {α : Type} (m : List (String × α)) (id : String) (st : α) :
    List (String × α) :=
  match m with
  | [] => [(id, st)]
  | (k, v) :: rest => if k = id then (k, st) :: rest else (k, v) :: setState rest id st

/-- MAX_BUFFER_LINES. -/
def MAX_BUFFER_LINES : Nat := 20

/-- IDLE_TIMEOUT_MS. -/
def IDLE_TIMEOUT_MS : Nat := 2000

/-- The buffer update of processOutput: split the chunk at newlines, keep
lines that are non-blank after trimming, append, keep the last 20. -/
def nextBuffer (buf : List String) (output : String) : List String :=
  let newLines := (jsSplitNl output).filter (fun l => jsTrim l != "")
  let b := buf ++ newLines
  if b.length > MAX_BUFFER_LINES then b.drop (b.length - MAX_BUFFER_LINES) else b

/-- DetectThreadStatusUseCase.processOutput (hybrid variant): buffer update,
timer cancellation, then the idle-from-current-chunk, waiting-from-buffer
and working-with-decay-timer branches. -/
def processOutput (det : Detector) (tr : Tracker) (id : String) (aiType : AIType)
    (output : String) (now : Nat) : Tracker :=
  let st0 := (lookupState tr.states id).getD
    { status := .inactive, lastUpdate := now, idleTimer := none, outputBuffer := [] }
  let buf := nextBuffer st0.outputBuffer output
  let st1 := { st0 with outputBuffer := buf, idleTimer := none }
  if det.detect aiType output = .idle then
    if st1.status ≠ .idle then
      { tr with
        states := setState tr.states id { st1 with status := .idle, lastUpdate := now }
        events := tr.events ++ [(id, .idle)] }
    else { tr with states := setState tr.states id st1 }
  else if det.detectFromBuffer aiType buf = .waiting then
    if st1.status ≠ .waiting then
      { tr with
        states := setState tr.states id { st1 with status := .waiting, lastUpdate := now }
        events := tr.events ++ [(id, .waiting)] }
    else { tr with states := setState tr.states id st1 }
  else
    if st1.status ≠ .working then
      { tr with
        states := setState tr.states id
          { st1 with status := .working, lastUpdate := now,
                     idleTimer := some (tr.nextTimer, IDLE_TIMEOUT_MS) }
        events := tr.events ++ [(id, AgentStatus.working)]
        nextTimer := tr.nextTimer + 1 }
    else
      { tr with
        states := setState tr.states id
          { st1 with idleTimer := some (tr.nextTimer, IDLE_TIMEOUT_MS) }
        events := tr.events
        nextTimer := tr.nextTimer + 1 }

/-- Firing of the idle timer of generation `gen` for `id`: enabled only
while that generation is still the armed one (a cancelled timeout never
runs, a fired one never runs again). The callback body turns a still-working
status idle and notifies. -/
def fireTimer (tr : Tracker) (id : String) (gen : Nat) (now : Nat) : Option Tracker :=
  match lookupState tr.states id with
  | none => none
  | some st =>
    match st.idleTimer with
    | some (g, _) =>
      if g = gen then
        some (if st.status = .working then
          { tr with
            states := setState tr.states id
              { st with status := .idle, lastUpdate := now, idleTimer := none }
            events := tr.events ++ [(id, .idle)] }
        else { tr with states := setState tr.states id { st with idleTimer := none } })
      else none
    | none => none

/-- DetectThreadStatusUseCase.getStatus. -/
def getStatus (tr : Tracker) (id : String) : AgentStatus :=
  ((lookupState tr.states id).map (fun st => st.status)).getD .inactive

/-- DetectThreadStatusUseCase.clear: cancel the timer and drop the state. -/
def clear (tr : Tracker) (id : String) : Tracker :=
  { tr with states := tr.states.filter (fun p => !decide (p.1 = id)) }

/-- TerminalState of the immediate-only tracker variant (no buffer). -/
structure TermState2 where
  status : AgentStatus
  lastUpdate : Nat
  idleTimer : Option (Nat × Nat)
deriving DecidableEq, Repr

/-- Whole-tracker state of the immediate-only variant. -/
structure Tracker2 where
  states : List (String × TermState2)
  events : List (String × AgentStatus)
  nextTimer : Nat
deriving DecidableEq, Repr

/-- processOutput of the immediate-only variant: classify the current chunk,
cancel the timer, then the waiting / working-with-timer / idle branches, and
the no-pattern fallthrough that moves inactive or working to idle. -/
def processOutput2 (det : Detector) (tr : Tracker2) (id : String) (aiType : AIType)
    (output : String) (now : Nat) : Tracker2 :=
  let st0 := (lookupState tr.states id).getD
    { status := .inactive, lastUpdate := now, idleTimer := none }
  let st1 := { st0 with idleTimer := none }
  match det.detect aiType output with
  | .waiting =>
    if st1.status ≠ .waiting then
      { tr with
        states := setState tr.states id { st1 with status := .waiting, lastUpdate := now }
        events := tr.events ++ [(id, .waiting)] }
    else { tr with states := setState tr.states id st1 }
  | .working =>
    if st1.status ≠ .working then
      { tr with
        states := setState tr.states id
          { st1 with status := .working, lastUpdate := now,
                     idleTimer := some (tr.nextTimer, IDLE_TIMEOUT_MS) }
        events := tr.events ++ [(id, AgentStatus.working)]
        nextTimer := tr.nextTimer + 1 }
    else
      { tr with
        states := setState tr.states id
          { st1 with idleTimer := some (tr.nextTimer, IDLE_TIMEOUT_MS) }
        events := tr.events
        nextTimer := tr.nextTimer + 1 }
  | .idle =>
    if st1.status ≠ .idle then
      { tr with
        states := setState tr.states id { st1 with status := .idle, lastUpdate := now }
        events := tr.events ++ [(id, .idle)] }
    else { tr with states := setState tr.states id st1 }
  | .inactive =>
    if st1.status = .inactive ∨ st1.status = .working then
      { tr with
        states := setState tr.states id { st1 with status := .idle, lastUpdate := now }
        events := tr.events ++ [(id, .idle)] }
    else { tr with states := setState tr.states id st1 }

/-- getStatus of the immediate-only variant. -/
def getStatus2 (tr : Tracker2) (id : String) : AgentStatus :=
  ((lookupState tr.states id).map (fun st => st.status)).getD .inactive

/-- clear of the immediate-only variant. -/
def clear2 (tr : Tracker2) (id : String) : Tracker2 :=
  { tr with states := tr.states.filter (fun p => !decide (p.1 = id)) }

/-! The diff orchestrator (GenerateDiffUseCase). -/

/-- The collaborator ports of GenerateDiffUseCase, resolved for one
relativePath: workspace root, snapshot repository (`has` is
`snapshot.isSome`, findByPath yields the snapshot content), the filesystem
calls as resolved values or rejections, and the VCS collaborator's unified
diff text. -/
structure OrchPorts where
  workspaceRoot : Option String
  snapshot : Option String
  fileExistsR : Except Unit Bool
  readFileR : Except Unit String
  gitDiff : String

/-- The empty DiffResult literal returned on the soft-fail paths. -/
def emptyResult (file : String) : DiffResult :=
  { file := file, hunks := [], stats := { additions := 0, deletions := 0 } }

/-- The try block of generateSnapshotDiff: stat, then read when the file
exists; a rejection of either call lands in the catch. -/
def readCurrent (p : OrchPorts) : Except Unit (Bool × String) :=
  match p.fileExistsR with
  | .error e => .error e
  | .ok ex =>
    if ex then
      match p.readFileR with
      | .error e => .error e
      | .ok s => .ok (ex, s)
    else .ok (ex, "")

/-- GenerateDiffUseCase.generateSnapshotDiff: the catch returns the empty
result; otherwise the three snapshot/current cases. -/
def generateSnapshotDiff (p : OrchPorts) (relativePath : String) : DiffResult :=
  match readCurrent p with
  | .error _ => emptyResult relativePath
  | .ok (fileEx, currentContent) =>
    match p.snapshot with
    | none =>
      if currentContent = "" then emptyResult relativePath
      else generateNewFileStructuredDiff relativePath currentContent
    | some snapContent =>
      if fileEx = false ∨ currentContent = "" then
        generateDeletedFileStructuredDiff relativePath snapContent
      else generateStructuredDiff relativePath snapContent currentContent

/-- GenerateDiffUseCase.execute; the zero-hunk check mirrors the source's
`diffResult.chunks.length === 0` (the entity revision used by DiffService
names the field hunks). -/
def executeOrch (p : OrchPorts) (relativePath : String) : Option DiffResult :=
  match p.workspaceRoot with
  | none => none
  | some _ =>
    let dr :=
      if p.snapshot.isSome then generateSnapshotDiff p relativePath
      else parseUnifiedDiff relativePath p.gitDiff
    if dr.hunks = [] then none else some dr

/-! Helper lemmas on the string primitives and the per-terminal map. -/

theorem strMk_data (s : String) : String.mk s.data = s := rfl

theorem lookupState_setState_self {α : Type} (m : List (String × α)) (id : String) (st : α) :
    lookupState (setState m id st) id = some st := by
  induction m with
  | nil => simp [setState, lookupState]
  | cons p rest ih =>
    obtain ⟨k, v⟩ := p
    by_cases h : k = id
    · simp [setState, h, lookupState]
    · simpa [setState, h, lookupState] using ih

theorem lookupState_setState_other {α : Type} (m : List (String × α)) (id id' : String)
    (st : α) (h : id' ≠ id) :
    lookupState (setState m id st) id' = lookupState m id' := by
  induction m with
  | nil => simp [setState, lookupState, Ne.symm h]
  | cons p rest ih =>
    obtain ⟨k, v⟩ := p
    by_cases hk : k = id
    · subst hk
      simp [setState, lookupState, Ne.symm h]
    · by_cases hk2 : k = id'
      · subst hk2
        simp [setState, lookupState, hk]
      · simpa [setState, hk, lookupState, hk2] using ih

theorem lookupState_clear {α : Type} (m : List (String × α)) (id : String) :
    lookupState (m.filter (fun p => !decide (p.1 = id))) id = none := by
  simp only [lookupState, Option.map_eq_none', List.find?_eq_none]
  intro p hp
  have hmem := List.of_mem_filter hp
  simpa using hmem

/-! Claim C10. -/

/-- C10: after any processOutput call returns, getStatus for that id is
working, waiting or idle — never inactive — in both tracker variants (the
hybrid one and the immediate-only one); inactive is observable only for an
id with no tracked state: on the fresh tracker and after clear. -/
theorem processOutput_never_inactive (det : Detector) (tr : Tracker) (tr2 : Tracker2)
    (id aid : String) (aiType : AIType) (output : String) (now : Nat) :
    getStatus (processOutput det tr id aiType output now) id ≠ .inactive
    ∧ getStatus2 (processOutput2 det tr2 id aiType output now) id ≠ .inactive
    ∧ getStatus emptyTracker aid = .inactive
    ∧ getStatus (clear tr aid) aid = .inactive
    ∧ getStatus2 (clear2 tr2 aid) aid = .inactive := by
  refine ⟨?_, ?_, ?_, ?_, ?_⟩
  · simp only [getStatus, processOutput]
    split
    · split <;> simp_all [lookupState_setState_self]
    · split
      · split <;> simp_all [lookupState_setState_self]
      · split <;> simp_all [lookupState_setState_self]
  · simp only [getStatus2, processOutput2]
    split <;> split <;> simp_all [lookupState_setState_self]
  · simp [getStatus, emptyTracker, lookupState]
  · simp [getStatus, clear, lookupState_clear]
  · simp [getStatus2, clear2, lookupState_clear]

/-! Claim C5. -/

/-- Whether some pattern of some group of priority `p` of the profile's
table matches the ANSI-stripped text. -/
def hasPrioMatch (t : AIType) (p : Nat) (s : String) : Bool :=
  (getPatternsForAI t).any
    (fun g => g.priority == p && g.patterns.any (fun pat => pat (stripAnsiCodes s)))

/-- C5: detect returns the status of the highest-priority group
(waiting = 3 > working = 2 > idle = 1) containing a pattern that matches the
ANSI-stripped text, inactive when no group matches; the group priorities
correspond to exactly these statuses in every profile table, and a text
matching both a waiting and a working pattern yields waiting. -/
theorem detect_priority (t : AIType) (s : String) :
    detect t s =
      (if hasPrioMatch t 3 s then AgentStatus.waiting
       else if hasPrioMatch t 2 s then AgentStatus.working
       else if hasPrioMatch t 1 s then AgentStatus.idle
       else AgentStatus.inactive)
    ∧ (∀ g ∈ getPatternsForAI t,
        (g.priority = 3 ↔ g.status = .waiting)
        ∧ (g.priority = 2 ↔ g.status = .working)
        ∧ (g.priority = 1 ↔ g.status = .idle))
    ∧ (hasPrioMatch t 3 s = true → hasPrioMatch t 2 s = true → detect t s = .waiting) := by
  have h1 : detect t s =
      (if hasPrioMatch t 3 s then AgentStatus.waiting
       else if hasPrioMatch t 2 s then AgentStatus.working
       else if hasPrioMatch t 1 s then AgentStatus.idle
       else AgentStatus.inactive) := by
    cases t <;>
      simp [detect, getPatternsForAI, hasPrioMatch, sortDesc, insertDesc, firstMatch,
        CLAUDE_PATTERNS, CODEX_PATTERNS, GEMINI_PATTERNS, GENERIC_PATTERNS]
  refine ⟨h1, ?_, ?_⟩
  · cases t <;> decide
  · intro h3 _h2
    rw [h1]
    simp [h3]

/-- Witness for C5 at the spec's own example: the text matches both a
waiting and a working pattern of the claude profile and detect returns
waiting. -/
theorem detect_priority_witness :
    hasPrioMatch .claude 3 "● Reading file... Do you want to proceed? (y/n)" = true
    ∧ hasPrioMatch .claude 2 "● Reading file... Do you want to proceed? (y/n)" = true
    ∧ detect .claude "● Reading file... Do you want to proceed? (y/n)" = .waiting :=
  ⟨by decide, by decide,
    (detect_priority .claude "● Reading file... Do you want to proceed? (y/n)").2.2
      (by decide) (by decide)⟩

/-! Claim C6. -/

/-- C6: when detect on the current raw chunk (not the buffer) yields idle,
processOutput sets the id's status to idle; it emits exactly one change
event when the previous status was not idle (in particular also from
waiting), and it emits no event and leaves the status at idle when the
status already was idle. -/
theorem processOutput_idle_immediate (det : Detector) (tr : Tracker) (id : String)
    (aiType : AIType) (output : String) (now : Nat)
    (h : det.detect aiType output = .idle) :
    getStatus (processOutput det tr id aiType output now) id = .idle
    ∧ (getStatus tr id ≠ .idle →
        (processOutput det tr id aiType output now).events = tr.events ++ [(id, .idle)])
    ∧ (getStatus tr id = .idle →
        (processOutput det tr id aiType output now).events = tr.events) := by
  cases hl : lookupState tr.states id with
  | none =>
    simp only [processOutput, h, hl, getStatus]
    simp [lookupState_setState_self]
  | some st =>
    by_cases hs : st.status = .idle
    · simp only [processOutput, h, hl, getStatus]
      simp [lookupState_setState_self, hs]
    · simp only [processOutput, h, hl, getStatus]
      simp [lookupState_setState_self, hs]

/-- Tracker that has just seen a waiting prompt on terminal t1 (the claim's
scenario: `Enter to select` puts the claude profile in waiting). -/
def c6tr : Tracker :=
  processOutput terminalStatusDetector emptyTracker "t1" .claude "Enter to select" 0

/-- Witness for C6 at the claim's scenario: from waiting, a chunk whose
current-text classification is idle flips the status to idle immediately and
emits exactly one change event. -/
theorem processOutput_idle_immediate_witness :
    terminalStatusDetector.detect .claude "> " = .idle
    ∧ getStatus c6tr "t1" = .waiting
    ∧ getStatus (processOutput terminalStatusDetector c6tr "t1" .claude "> " 1) "t1" = .idle
    ∧ (processOutput terminalStatusDetector c6tr "t1" .claude "> " 1).events =
        c6tr.events ++ [("t1", .idle)] :=
  ⟨rfl, by decide,
    (processOutput_idle_immediate terminalStatusDetector c6tr "t1" .claude "> " 1 rfl).1,
    (processOutput_idle_immediate terminalStatusDetector c6tr "t1" .claude "> " 1 rfl).2.1
      (by decide)⟩

/-! Claim C8. -/

/-- Orchestrator ports of the C8 counterexample: a snapshot with non-empty
content is registered and the stat call rejects. -/
def c8ports : OrchPorts :=
  { workspaceRoot := some "w", snapshot := some "a",
    fileExistsR := .error (), readFileR := .ok "", gitDiff := "" }

/-- The same ports with the stat call resolving to a genuinely absent file. -/
def c8portsAbsent : OrchPorts :=
  { c8ports with fileExistsR := .ok false }

/-- C8 counterexample: with snapshot content "a" registered, a failing stat
call makes execute return none (the catch returns the empty diff), while the
genuine-absence run returns the deleted-file synthetic diff — so an I/O
failure is NOT treated the same as an absent file, contrary to the claim. -/
theorem c8_counterexample :
    executeOrch c8ports "f" = none
    ∧ executeOrch c8portsAbsent "f" = some (generateDeletedFileStructuredDiff "f" "a")
    ∧ (generateDeletedFileStructuredDiff "f" "a").hunks ≠ [] := by
  refine ⟨rfl, rfl, by decide⟩

/-- C8 amended: with a snapshot registered, a stat rejection or a read
rejection makes generateSnapshotDiff return the empty diff (and execute
return none) — the I/O error is swallowed but the result is the empty diff,
not the deleted-file diff; the deleted-file synthetic diff from the snapshot
content is produced only when the stat genuinely resolves to false. -/
theorem generateSnapshotDiff_failure_empty (p : OrchPorts) (rel s : String)
    (hsnap : p.snapshot = some s) :
    (p.fileExistsR = .error () →
      generateSnapshotDiff p rel = emptyResult rel ∧ executeOrch p rel = none)
    ∧ (p.fileExistsR = .ok true → p.readFileR = .error () →
      generateSnapshotDiff p rel = emptyResult rel ∧ executeOrch p rel = none)
    ∧ (p.fileExistsR = .ok false →
      generateSnapshotDiff p rel = generateDeletedFileStructuredDiff rel s) := by
  refine ⟨?_, ?_, ?_⟩
  · intro hfe
    have hg : generateSnapshotDiff p rel = emptyResult rel := by
      simp [generateSnapshotDiff, readCurrent, hfe]
    refine ⟨hg, ?_⟩
    simp only [executeOrch]
    cases p.workspaceRoot <;> simp [hsnap, hg, emptyResult]
  · intro hfe hrf
    have hg : generateSnapshotDiff p rel = emptyResult rel := by
      simp [generateSnapshotDiff, readCurrent, hfe, hrf]
    refine ⟨hg, ?_⟩
    simp only [executeOrch]
    cases p.workspaceRoot <;> simp [hsnap, hg, emptyResult]
  · intro hfe
    simp [generateSnapshotDiff, readCurrent, hfe, hsnap]

/-- Witness for the C8 amended theorem, at the counterexample ports. -/
theorem generateSnapshotDiff_failure_empty_witness :
    executeOrch c8ports "f" = none
    ∧ generateSnapshotDiff c8portsAbsent "f" = generateDeletedFileStructuredDiff "f" "a" :=
  ⟨((generateSnapshotDiff_failure_empty c8ports "f" "a" rfl).1 rfl).2,
    (generateSnapshotDiff_failure_empty c8portsAbsent "f" "a" rfl).2.2 rfl⟩

/-! Claim C9. -/

/-- Number of addition lines of one hunk. -/
def hunkAdditions (h : DiffHunk) : Nat :=
  (h.lines.filter (fun l => decide (l.type = DiffLineType.addition))).length

/-- Number of deletion lines of one hunk. -/
def hunkDeletions (h : DiffHunk) : Nat :=
  (h.lines.filter (fun l => decide (l.type = DiffLineType.deletion))).length

/-- Sum of addition lines over all hunks of a result. -/
def sumAdditions (r : DiffResult) : Nat :=
  (r.hunks.map hunkAdditions).sum

/-- Sum of deletion lines over all hunks of a result. -/
def sumDeletions (r : DiffResult) : Nat :=
  (r.hunks.map hunkDeletions).sum

/-- A diff text with a malformed hunk-header line: the `@@ bad` line pushes
the open hunk a first time without replacing it, so the next real header
pushes the same hunk again. -/
def c9text : String := "@@ -1,1 +1,1 @@\n+a\n@@ bad\n+b\n@@ -2,2 +2,2 @@\n+c"

/-- C9 counterexample: on `c9text` the parser lists the first hunk twice
(the JS array holds the same object twice), so stats.additions is 3 but the
sum of addition lines over the hunks of the result is 5 — the claimed
invariant fails for this malformed input. -/
theorem c9_counterexample :
    (parseUnifiedDiff "f" c9text).stats.additions = 3
    ∧ sumAdditions (parseUnifiedDiff "f" c9text) = 5
    ∧ ¬ ((parseUnifiedDiff "f" c9text).stats.additions =
          sumAdditions (parseUnifiedDiff "f" c9text)
        ∧ (parseUnifiedDiff "f" c9text).stats.deletions =
          sumDeletions (parseUnifiedDiff "f" c9text)) := by
  refine ⟨by decide, by decide, by decide⟩

/-- The parser-loop invariant: the counters equal the sums over all created
hunks, and the push sequence is an initial segment of the creation indices
(exactly the closed ones). -/
def PUInv (st : PUState) : Prop :=
  st.additions = (st.created.map hunkAdditions).sum
  ∧ st.deletions = (st.created.map hunkDeletions).sum
  ∧ (match st.curIdx with
     | some i => i + 1 = st.created.length ∧ st.pushes = List.range i
     | none => st.pushes = List.range st.created.length)

theorem sum_map_pushLineAt (f : DiffHunk → Nat) (dl : DiffLine) (d : Nat)
    (hf : ∀ h : DiffHunk, f { h with lines := h.lines ++ [dl] } = f h + d) :
    ∀ (hs : List DiffHunk) (i : Nat), i < hs.length →
      ((pushLineAt hs i dl).map f).sum = (hs.map f).sum + d := by
  intro hs
  induction hs with
  | nil => intro i hi; simp at hi
  | cons h t ih =>
    intro i hi
    cases i with
    | zero =>
      simp [pushLineAt, List.modify, hf h]
      omega
    | succ j =>
      have hj : j < t.length := by simpa using hi
      have := ih j hj
      simp [pushLineAt, List.modify] at this ⊢
      omega

theorem hunkAdditions_append (h : DiffHunk) (dl : DiffLine) :
    hunkAdditions { h with lines := h.lines ++ [dl] } =
      hunkAdditions h + (if dl.type = DiffLineType.addition then 1 else 0) := by
  simp [hunkAdditions, List.filter_append]
  split <;> simp_all

theorem hunkDeletions_append (h : DiffHunk) (dl : DiffLine) :
    hunkDeletions { h with lines := h.lines ++ [dl] } =
      hunkDeletions h + (if dl.type = DiffLineType.deletion then 1 else 0) := by
  simp [hunkDeletions, List.filter_append]
  split <;> simp_all

theorem puStep_inv (st : PUState) (l : String) (h : PUInv st)
    (hl : jsStartsWith l "@@" = true → (hunkHeaderSearch l.data).isSome = true) :
    PUInv (puStep st l) := by
  obtain ⟨ha, hd, hidx⟩ := h
  unfold puStep
  split
  · exact ⟨ha, hd, hidx⟩
  split
  · rename_i hmeta hat
    rcases hsearch : hunkHeaderSearch l.data with _ | ⟨o, n⟩
    · exact absurd (hl hat) (by simp [hsearch])
    · simp only [hsearch]
      cases hcur : st.curIdx with
      | none =>
        simp only [hcur] at hidx ⊢
        refine ⟨by simpa [hunkAdditions] using ha, by simpa [hunkDeletions] using hd, ?_⟩
        exact ⟨by simp, by simpa using hidx⟩
      | some i =>
        simp only [hcur] at hidx ⊢
        obtain ⟨hlen, hpush⟩ := hidx
        refine ⟨by simpa [hunkAdditions] using ha, by simpa [hunkDeletions] using hd,
          by simp, ?_⟩
        show st.pushes ++ [i] = List.range st.created.length
        rw [hpush, ← List.range_succ]
        congr 1
  · cases hcur : st.curIdx with
    | none =>
      simp only [hcur]
      exact ⟨ha, hd, by simpa [hcur] using hidx⟩
    | some i =>
      simp only [hcur] at hidx ⊢
      obtain ⟨hlen, hpush⟩ := hidx
      have hi : i < st.created.length := by omega
      split
      · refine ⟨?_, ?_, ?_, ?_⟩
        · rw [show (PUState.additions { st with
              created := pushLineAt st.created i
                { type := .addition, content := jsDrop1 l, newLineNumber := some st.newLineNum }
              newLineNum := st.newLineNum + 1
              additions := st.additions + 1 }) = st.additions + 1 from rfl]
          rw [sum_map_pushLineAt hunkAdditions _ 1
            (fun hh => by simp [hunkAdditions_append]) _ _ hi]
          omega
        · rw [sum_map_pushLineAt hunkDeletions _ 0
            (fun hh => by simp [hunkDeletions_append]) _ _ hi]
          simpa using hd
        · simp [pushLineAt, hlen]
        · exact hpush
      split
      · refine ⟨?_, ?_, ?_, ?_⟩
        · rw [sum_map_pushLineAt hunkAdditions _ 0
            (fun hh => by simp [hunkAdditions_append]) _ _ hi]
          simpa using ha
        · rw [show (PUState.deletions { st with
              created := pushLineAt st.created i
                { type := .deletion, content := jsDrop1 l, oldLineNumber := some st.oldLineNum }
              oldLineNum := st.oldLineNum + 1
              deletions := st.deletions + 1 }) = st.deletions + 1 from rfl]
          rw [sum_map_pushLineAt hunkDeletions _ 1
            (fun hh => by simp [hunkDeletions_append]) _ _ hi]
          omega
        · simp [pushLineAt, hlen]
        · exact hpush
      · refine ⟨?_, ?_, ?_, ?_⟩
        · rw [sum_map_pushLineAt hunkAdditions _ 0
            (fun hh => by simp [hunkAdditions_append]) _ _ hi]
          simpa using ha
        · rw [sum_map_pushLineAt hunkDeletions _ 0
            (fun hh => by simp [hunkDeletions_append]) _ _ hi]
          simpa using hd
        · simp [pushLineAt, hlen]
        · exact hpush

theorem foldl_puStep_inv (lines : List String) :
    ∀ (st : PUState), PUInv st →
      (∀ l ∈ lines, jsStartsWith l "@@" = true → (hunkHeaderSearch l.data).isSome = true) →
      PUInv (lines.foldl puStep st) := by
  induction lines with
  | nil => intro st h _; simpa using h
  | cons l rest ih =>
    intro st h hwf
    simp only [List.foldl_cons]
    exact ih _ (puStep_inv st l h (hwf l (by simp)))
      (fun x hx => hwf x (by simp [hx]))

theorem map_range_getD {α : Type} (l : List α) (d : α) :
    (List.range l.length).map (fun i => l.getD i d) = l := by
  induction l with
  | nil => simp
  | cons a t ih =>
    rw [List.length_cons, List.range_succ_eq_map, List.map_cons, List.map_map]
    refine congrArg (a :: ·) ?_
    have hfun : List.map ((fun i => (a :: t).getD i d) ∘ Nat.succ) (List.range t.length)
        = List.map (fun i => t.getD i d) (List.range t.length) :=
      List.map_congr_left (fun i _ => by simp [Function.comp])
    rw [hfun, ih]

/-- C9 amended: the stats invariant — stats.additions and stats.deletions
equal the sums of addition and deletion lines over the hunks of the result —
holds for every input whose `@@`-prefixed lines all match the hunk-header
regex; a malformed `@@` line makes the parser push the open hunk twice, and
the hunk then counts twice in the sum but once in the stats. -/
theorem parseUnifiedDiff_stats (file text : String)
    (hwf : ∀ l ∈ jsSplitNl text,
      jsStartsWith l "@@" = true → (hunkHeaderSearch l.data).isSome = true) :
    (parseUnifiedDiff file text).stats.additions = sumAdditions (parseUnifiedDiff file text)
    ∧ (parseUnifiedDiff file text).stats.deletions =
        sumDeletions (parseUnifiedDiff file text) := by
  unfold parseUnifiedDiff
  split
  · simp [sumAdditions, sumDeletions]
  · have hinv := foldl_puStep_inv (jsSplitNl text) initPU
      (by simp [PUInv, initPU]) hwf
    obtain ⟨ha, hd, hidx⟩ := hinv
    set fin := (jsSplitNl text).foldl puStep initPU
    have hfp : finalPushes fin = List.range fin.created.length := by
      unfold finalPushes
      cases hcur : fin.curIdx with
      | none =>
        simp only [hcur] at hidx ⊢
        exact hidx
      | some i =>
        simp only [hcur] at hidx ⊢
        obtain ⟨hlen, hpush⟩ := hidx
        rw [hpush, ← List.range_succ]
        congr 1
    constructor
    · simp only [sumAdditions]
      rw [hfp, map_range_getD fin.created defaultHunk]
      exact ha
    · simp only [sumDeletions]
      rw [hfp, map_range_getD fin.created defaultHunk]
      exact hd

/-- Witness for the C9 amended theorem at a well-formed two-hunk diff. -/
theorem parseUnifiedDiff_stats_witness :
    (parseUnifiedDiff "f" "@@ -1,2 +1,1 @@\n-a\n-b\n+c\n@@ -9,1 +8,1 @@\n x\n+y").stats.additions =
      sumAdditions (parseUnifiedDiff "f" "@@ -1,2 +1,1 @@\n-a\n-b\n+c\n@@ -9,1 +8,1 @@\n x\n+y")
    ∧ (parseUnifiedDiff "f" "@@ -1,2 +1,1 @@\n-a\n-b\n+c\n@@ -9,1 +8,1 @@\n x\n+y").stats.deletions =
      sumDeletions (parseUnifiedDiff "f" "@@ -1,2 +1,1 @@\n-a\n-b\n+c\n@@ -9,1 +8,1 @@\n x\n+y") :=
  parseUnifiedDiff_stats "f" "@@ -1,2 +1,1 @@\n-a\n-b\n+c\n@@ -9,1 +8,1 @@\n x\n+y" (by decide)

/-! Claim C3. -/

/-- Operation list of the C3 counterexample: two hunks; the second opens at
old/new line 7 but the shared, never-reset `hunkStart` still holds 2. -/
def c3ops : List DiffEntry :=
  [ { type := .equal, line := "a" }, { type := .delete, line := "b" },
    { type := .insert, line := "X" }, { type := .equal, line := "c" },
    { type := .equal, line := "d" }, { type := .equal, line := "e" },
    { type := .equal, line := "f" }, { type := .delete, line := "h" } ]

/-- C3 counterexample: the second flushed hunk of `c3ops` is emitted with
header starts -2/+2 although its first line sits at old line 7 and new
line 7 — so the emitted starts are not the per-side 1-based line numbers of
the hunk's first line, and the two starts are not computed independently. -/
theorem c3_counterexample :
    (fmtRun c3ops).flushed.map (fun r => (r.hdrOld, r.trueOld, r.trueNew)) =
      [(2, 2, 2), (2, 7, 7)]
    ∧ ¬ (∀ r ∈ (fmtRun c3ops).flushed,
          r.hdrOld = (r.trueOld : Int) ∧ r.hdrNew = (r.trueNew : Int)) := by
  refine ⟨by decide, by decide⟩

/-- The formatter invariant behind the amended C3: the shared `hunkStart` is
-1 exactly until the first change; every flushed record carries it on both
sides of its header; the open-hunk ghost pair exists iff a hunk is open, and
before the first flush it coincides with `hunkStart`; the head record's true
starts coincide with its header start; once set, a change has happened. -/
def FmtInv (s : FmtState) : Prop :=
  (s.hunkStart = -1 →
    s.flushed = [] ∧ s.hunkLines = [] ∧ s.oldLineNum = s.newLineNum ∧ s.openTrue = none)
  ∧ (∀ r ∈ s.flushed, r.hdrOld = s.hunkStart ∧ r.hdrNew = s.hunkStart)
  ∧ (s.hunkLines = [] ↔ s.openTrue = none)
  ∧ (s.flushed = [] → ∀ o n, s.openTrue = some (o, n) →
      (o : Int) = s.hunkStart ∧ (n : Int) = s.hunkStart)
  ∧ (∀ r0 rs, s.flushed = r0 :: rs → r0.trueOld = r0.trueNew ∧ (r0.trueOld : Int) = r0.hdrOld)
  ∧ (s.hunkStart ≠ -1 → s.hunkLines ≠ [] ∨ s.flushed ≠ [])

theorem flushFmt_inv (s : FmtState) (h : FmtInv s) : FmtInv (flushFmt s) := by
  obtain ⟨h1, h2, h3, h4, h5, h6⟩ := h
  unfold flushFmt
  split
  · exact ⟨h1, h2, h3, h4, h5, h6⟩
  · rename_i hne
    have hs : s.hunkStart ≠ -1 := fun hm => hne (h1 hm).2.1
    obtain ⟨p, hp⟩ : ∃ p, s.openTrue = some p := by
      rcases ho : s.openTrue with _ | p
      · exact absurd (h3.mpr ho) hne
      · exact ⟨p, rfl⟩
    refine ⟨fun hm => absurd hm hs, ?_, by simp, by simp, ?_, fun _ => Or.inr (by simp)⟩
    · intro r hr
      simp only [List.mem_append, List.mem_singleton] at hr
      rcases hr with hr | hr
      · exact h2 r hr
      · subst hr
        exact ⟨rfl, rfl⟩
    · intro r0 rs hsplit
      rcases hfl : s.flushed with _ | ⟨q0, qs⟩
      · simp only [hfl, List.nil_append] at hsplit
        obtain ⟨o, n⟩ := p
        have h4' := h4 hfl o n hp
        obtain ⟨hr0, -⟩ := List.cons_eq_cons.mp hsplit
        rw [← hr0]
        simp only [hp, Option.getD_some]
        refine ⟨?_, h4'.1⟩
        have hcast : (o : Int) = (n : Int) := by rw [h4'.1, h4'.2]
        exact_mod_cast hcast
      · simp only [hfl, List.cons_append] at hsplit
        have := List.cons_eq_cons.mp hsplit
        exact this.1.symm ▸ h5 q0 qs hfl

theorem FmtInv_bump (s : FmtState) (h : FmtInv s) :
    FmtInv { s with oldLineNum := s.oldLineNum + 1, newLineNum := s.newLineNum + 1 } := by
  obtain ⟨h1, h2, h3, h4, h5, h6⟩ := h
  refine ⟨?_, h2, h3, h4, h5, h6⟩
  intro hm
  obtain ⟨a1, a2, a3, a4⟩ := h1 hm
  refine ⟨a1, a2, ?_, a4⟩
  show s.oldLineNum + 1 = s.newLineNum + 1
  omega

theorem fmtStep_inv (s : FmtState) (e : DiffEntry) (h : FmtInv s) : FmtInv (fmtStep s e) := by
  obtain ⟨h1, h2, h3, h4, h5, h6⟩ := h
  unfold fmtStep
  rcases e with ⟨ty, line⟩
  cases ty with
  | equal =>
    simp only
    refine FmtInv_bump _ ?_
    split
    · exact ⟨h1, h2, h3, h4, h5, h6⟩
    · rename_i hemp
      have hs : s.hunkStart ≠ -1 := fun hm => hemp (h1 hm).2.1
      have hinner : FmtInv { s with
          hunkLines := s.hunkLines ++ [" " ++ line]
          oldCount := s.oldCount + 1
          newCount := s.newCount + 1 } := by
        refine ⟨fun hm => absurd hm hs, h2, ?_, h4, h5, fun _ => Or.inl (by simp)⟩
        constructor
        · intro hnil
          simp at hnil
        · intro ho
          exact absurd (h3.mpr ho) hemp
      split
      · exact flushFmt_inv _ hinner
      · exact hinner
  | delete =>
    simp only
    constructor
    · intro hm
      by_cases hsm : s.hunkStart = -1 <;> simp [hsm] at hm
    refine ⟨?_, ?_, ?_, ?_, ?_⟩
    · intro r hr
      have hne : s.flushed ≠ [] := by
        intro hq
        rw [hq] at hr
        exact absurd hr (List.not_mem_nil r)
      have hs : s.hunkStart ≠ -1 := fun hm => hne (h1 hm).1
      have h2' := h2 r hr
      constructor
      · show r.hdrOld = if s.hunkStart = -1 then (s.oldLineNum : Int) else s.hunkStart
        rw [if_neg hs]
        exact h2'.1
      · show r.hdrNew = if s.hunkStart = -1 then (s.oldLineNum : Int) else s.hunkStart
        rw [if_neg hs]
        exact h2'.2
    · constructor
      · intro hnil
        exact absurd hnil (by simp)
      · intro ho
        exfalso
        revert ho
        show (if s.hunkLines = [] then some (s.oldLineNum, s.newLineNum) else s.openTrue) = none → False
        split
        · intro ho
          simp at ho
        · rename_i hemp2
          intro ho
          exact hemp2 (h3.mpr ho)
    · intro hfl o n hop
      by_cases hemp : s.hunkLines = []
      · have hsm : s.hunkStart = -1 := by
          by_contra hc
          rcases h6 hc with hx | hx
          · exact hx hemp
          · exact hx hfl
        obtain ⟨-, -, heq, -⟩ := h1 hsm
        simp only [hemp, if_pos] at hop
        simp only [Option.some_inj, Prod.mk.injEq] at hop
        obtain ⟨ho, hn⟩ := hop
        subst ho
        subst hn
        constructor
        · show (s.oldLineNum : Int) = if s.hunkStart = -1 then (s.oldLineNum : Int) else s.hunkStart
          rw [if_pos hsm]
        · show (s.newLineNum : Int) = if s.hunkStart = -1 then (s.oldLineNum : Int) else s.hunkStart
          rw [if_pos hsm, heq]
      · have hs : s.hunkStart ≠ -1 := fun hm => hemp (h1 hm).2.1
        simp only [if_neg hemp] at hop
        have h4' := h4 hfl o n hop
        constructor
        · show (o : Int) = if s.hunkStart = -1 then (s.oldLineNum : Int) else s.hunkStart
          rw [if_neg hs]
          exact h4'.1
        · show (n : Int) = if s.hunkStart = -1 then (s.oldLineNum : Int) else s.hunkStart
          rw [if_neg hs]
          exact h4'.2
    · intro r0 rs hsplit
      exact h5 r0 rs hsplit
    · intro _
      exact Or.inl (by simp)
  | insert =>
    simp only
    constructor
    · intro hm
      by_cases hsm : s.hunkStart = -1 <;> simp [hsm] at hm
    refine ⟨?_, ?_, ?_, ?_, ?_⟩
    · intro r hr
      have hne : s.flushed ≠ [] := by
        intro hq
        rw [hq] at hr
        exact absurd hr (List.not_mem_nil r)
      have hs : s.hunkStart ≠ -1 := fun hm => hne (h1 hm).1
      have h2' := h2 r hr
      constructor
      · show r.hdrOld = if s.hunkStart = -1 then (s.newLineNum : Int) else s.hunkStart
        rw [if_neg hs]
        exact h2'.1
      · show r.hdrNew = if s.hunkStart = -1 then (s.newLineNum : Int) else s.hunkStart
        rw [if_neg hs]
        exact h2'.2
    · constructor
      · intro hnil
        exact absurd hnil (by simp)
      · intro ho
        exfalso
        revert ho
        show (if s.hunkLines = [] then some (s.oldLineNum, s.newLineNum) else s.openTrue) = none → False
        split
        · intro ho
          simp at ho
        · rename_i hemp2
          intro ho
          exact hemp2 (h3.mpr ho)
    · intro hfl o n hop
      by_cases hemp : s.hunkLines = []
      · have hsm : s.hunkStart = -1 := by
          by_contra hc
          rcases h6 hc with hx | hx
          · exact hx hemp
          · exact hx hfl
        obtain ⟨-, -, heq, -⟩ := h1 hsm
        simp only [hemp, if_pos] at hop
        simp only [Option.some_inj, Prod.mk.injEq] at hop
        obtain ⟨ho, hn⟩ := hop
        subst ho
        subst hn
        constructor
        · show (s.oldLineNum : Int) = if s.hunkStart = -1 then (s.newLineNum : Int) else s.hunkStart
          rw [if_pos hsm, heq]
        · show (s.newLineNum : Int) = if s.hunkStart = -1 then (s.newLineNum : Int) else s.hunkStart
          rw [if_pos hsm]
      · have hs : s.hunkStart ≠ -1 := fun hm => hemp (h1 hm).2.1
        simp only [if_neg hemp] at hop
        have h4' := h4 hfl o n hop
        constructor
        · show (o : Int) = if s.hunkStart = -1 then (s.newLineNum : Int) else s.hunkStart
          rw [if_neg hs]
          exact h4'.1
        · show (n : Int) = if s.hunkStart = -1 then (s.newLineNum : Int) else s.hunkStart
          rw [if_neg hs]
          exact h4'.2
    · intro r0 rs hsplit
      exact h5 r0 rs hsplit
    · intro _
      exact Or.inl (by simp)

theorem fmtRun_inv (ops : List DiffEntry) : FmtInv (fmtRun ops) := by
  have hsteps : ∀ (l : List DiffEntry) (s : FmtState), FmtInv s → FmtInv (l.foldl fmtStep s) := by
    intro l
    induction l with
    | nil => intro s h; simpa using h
    | cons e rest ih =>
      intro s h
      simp only [List.foldl_cons]
      exact ih _ (fmtStep_inv s e h)
  have hinit : FmtInv initFmt := by
    refine ⟨fun _ => ⟨rfl, rfl, rfl, rfl⟩, ?_, ?_, ?_, ?_, ?_⟩
    · intro r hr
      simp [initFmt] at hr
    · simp [initFmt]
    · intro _ o n hop
      simp [initFmt] at hop
    · intro r0 rs hsplit
      simp [initFmt] at hsplit
    · intro hc
      exact absurd rfl hc
  exact flushFmt_inv _ (hsteps ops initFmt hinit)

/-- C3 amended: every emitted hunk header carries one shared start on both
sides (`@@ -s,oldCount +s,newCount @@`): `s` is `hunkStart`, set once at the
first delete/insert of the whole render — where the old and new line numbers
still coincide, so for the first hunk it is the correct start of both
sides — and never reset, so every later hunk reuses the first hunk's start
instead of its own per-side position. -/
theorem formatAsUnifiedDiff_sharedStart (ops : List DiffEntry) :
    (∀ r ∈ (fmtRun ops).flushed, r.hdrOld = r.hdrNew)
    ∧ (∀ r0 rs, (fmtRun ops).flushed = r0 :: rs →
        r0.trueOld = r0.trueNew ∧ (r0.trueOld : Int) = r0.hdrOld
        ∧ ∀ r ∈ rs, r.hdrOld = r0.hdrOld) := by
  obtain ⟨-, h2, -, -, h5, -⟩ := fmtRun_inv ops
  refine ⟨?_, ?_⟩
  · intro r hr
    obtain ⟨ho, hn⟩ := h2 r hr
    rw [ho, hn]
  · intro r0 rs hsplit
    obtain ⟨ht, hh⟩ := h5 r0 rs hsplit
    refine ⟨ht, hh, ?_⟩
    intro r hr
    have hmem : r ∈ (fmtRun ops).flushed := by
      rw [hsplit]
      exact List.mem_cons_of_mem r0 hr
    have hmem0 : r0 ∈ (fmtRun ops).flushed := by
      rw [hsplit]
      exact List.mem_cons_self r0 rs
    rw [(h2 r hmem).1, (h2 r0 hmem0).1]

/-- Witness for the C3 amended theorem: the second hunk of the
counterexample render carries the shared start on both header sides. -/
theorem formatAsUnifiedDiff_sharedStart_witness :
    ((fmtRun c3ops).flushed.getD 1 ⟨0, 0, 0, 0, 0, 0, []⟩).hdrOld =
      ((fmtRun c3ops).flushed.getD 1 ⟨0, 0, 0, 0, 0, 0, []⟩).hdrNew :=
  (formatAsUnifiedDiff_sharedStart c3ops).1 _ (by decide)

/-! Claim C4. -/

/-- Length of the trailing run of context lines of a hunk. -/
def trailingCtx (ls : List String) : Nat :=
  (ls.reverse.takeWhile (fun l => jsStartsWith l " ")).length

/-- Operation list of the C4 counterexample: context lines interleaved with
deletes; the third context line arrives with only two trailing. -/
def c4ops : List DiffEntry :=
  [ { type := .delete, line := "a" }, { type := .equal, line := "c1" },
    { type := .delete, line := "b" }, { type := .equal, line := "c2" },
    { type := .equal, line := "c3" } ]

/-- C4 counterexample: processing `c4ops` flushes a hunk mid-stream whose
trailing context run has length 2, not 3 — the flush fired because the hunk
held 3 context lines in total (interleaved ones count), refuting the
3-consecutive-trailing-lines flush rule. -/
theorem c4_counterexample :
    (fmtSteps c4ops).flushed.map (fun r => (trailingCtx r.lines, ctxCount r.lines)) = [(2, 3)]
    ∧ ¬ (∀ r ∈ (fmtSteps c4ops).flushed, trailingCtx r.lines = 3) := by
  refine ⟨by decide, by decide⟩

theorem ctxCount_append_space (ls : List String) (x : String) :
    ctxCount (ls ++ [" " ++ x]) = ctxCount ls + 1 := by
  simp [ctxCount, List.filter_append, jsStartsWith, List.isPrefixOf]

theorem ctxCount_append_dash (ls : List String) (x : String) :
    ctxCount (ls ++ ["-" ++ x]) = ctxCount ls := by
  simp [ctxCount, List.filter_append, jsStartsWith, List.isPrefixOf]

theorem ctxCount_append_plus (ls : List String) (x : String) :
    ctxCount (ls ++ ["+" ++ x]) = ctxCount ls := by
  simp [ctxCount, List.filter_append, jsStartsWith, List.isPrefixOf]

/-- The context invariant: an open hunk never holds more than 2 context
lines, and every hunk flushed during the entry loop holds exactly 3. -/
def CtxInv (s : FmtState) : Prop :=
  ctxCount s.hunkLines ≤ 2 ∧ ∀ r ∈ s.flushed, ctxCount r.lines = 3

theorem fmtStep_ctxInv (s : FmtState) (e : DiffEntry) (h : CtxInv s) : CtxInv (fmtStep s e) := by
  obtain ⟨h1, h2⟩ := h
  unfold fmtStep
  rcases e with ⟨ty, line⟩
  cases ty with
  | equal =>
    simp only
    split
    · exact ⟨h1, h2⟩
    · split
      · rename_i hemp hge
        have hceq : ctxCount (s.hunkLines ++ [" " ++ line]) = 3 := by
          rw [ctxCount_append_space] at hge ⊢
          omega
        show CtxInv (flushFmt { s with
          hunkLines := s.hunkLines ++ [" " ++ line],
          oldCount := s.oldCount + 1,
          newCount := s.newCount + 1 })
        unfold flushFmt
        rw [if_neg (by simp)]
        refine ⟨by simp [ctxCount], ?_⟩
        intro r hr
        rcases List.mem_append.mp hr with hr | hr
        · exact h2 r hr
        · simp only [List.mem_singleton] at hr
          subst hr
          simpa using hceq
      · rename_i hemp hlt
        refine ⟨?_, h2⟩
        show ctxCount (s.hunkLines ++ [" " ++ line]) ≤ 2
        rw [ctxCount_append_space]
        rw [ctxCount_append_space] at hlt
        omega
  | delete => exact ⟨by simpa [ctxCount_append_dash] using h1, h2⟩
  | insert => exact ⟨by simpa [ctxCount_append_plus] using h1, h2⟩

theorem fmtSteps_ctxInv (ops : List DiffEntry) : CtxInv (fmtSteps ops) := by
  have hsteps : ∀ (l : List DiffEntry) (s : FmtState), CtxInv s → CtxInv (l.foldl fmtStep s) := by
    intro l
    induction l with
    | nil => intro s h; simpa using h
    | cons e rest ih =>
      intro s h
      simp only [List.foldl_cons]
      exact ih _ (fmtStep_ctxInv s e h)
  refine hsteps ops initFmt ⟨?_, ?_⟩
  · simp [initFmt, ctxCount]
  · intro r hr
    simp [initFmt] at hr

/-- C4 amended: during the entry loop an open hunk is flushed exactly when
its total number of context lines reaches 3 on appending a context line —
context lines interleaved with later changes count toward the threshold, so
every mid-stream-flushed hunk holds exactly 3 context lines (not necessarily
trailing-consecutive); delete/insert entries never flush; and an equal entry
with no open hunk only advances the line counters, emitting nothing. -/
theorem formatAsUnifiedDiff_flushOnTotalCtx :
    (∀ (ops : List DiffEntry), ∀ r ∈ (fmtSteps ops).flushed, ctxCount r.lines = 3)
    ∧ (∀ (s : FmtState) (e : DiffEntry),
        (fmtStep s e).flushed.length > s.flushed.length ↔
          e.type = .equal ∧ s.hunkLines ≠ [] ∧ ctxCount s.hunkLines + 1 ≥ 3)
    ∧ (∀ (s : FmtState) (e : DiffEntry), e.type = .equal → s.hunkLines = [] →
        fmtStep s e =
          { s with oldLineNum := s.oldLineNum + 1, newLineNum := s.newLineNum + 1 }) := by
  refine ⟨fun ops => (fmtSteps_ctxInv ops).2, ?_, ?_⟩
  · intro s e
    rcases e with ⟨ty, line⟩
    cases ty with
    | equal =>
      unfold fmtStep
      simp only
      split
      · rename_i hemp
        simp [hemp]
      · rename_i hemp
        split
        · rename_i hge
          rw [ctxCount_append_space] at hge
          refine iff_of_true ?_ ⟨by simp, hemp, hge⟩
          show (flushFmt { s with
            hunkLines := s.hunkLines ++ [" " ++ line],
            oldCount := s.oldCount + 1,
            newCount := s.newCount + 1 }).flushed.length > s.flushed.length
          unfold flushFmt
          rw [if_neg (by simp)]
          simp
        · rename_i hlt
          rw [ctxCount_append_space] at hlt
          refine iff_of_false ?_ ?_
          · show ¬ s.flushed.length > s.flushed.length
            omega
          · rintro ⟨-, -, hc⟩
            omega
    | delete =>
      unfold fmtStep
      simp only
      refine iff_of_false ?_ ?_
      · show ¬ s.flushed.length > s.flushed.length
        omega
      · rintro ⟨hc, -, -⟩
        exact absurd hc (by simp)
    | insert =>
      unfold fmtStep
      simp only
      refine iff_of_false ?_ ?_
      · show ¬ s.flushed.length > s.flushed.length
        omega
      · rintro ⟨hc, -, -⟩
        exact absurd hc (by simp)
  · intro s e hty hemp
    rcases e with ⟨ty, line⟩
    cases ty <;> simp at hty ⊢
    simp [fmtStep, hemp]

/-- Witness for the C4 amended theorem: the counterexample's flushed hunk
holds exactly 3 context lines, and an equal entry with no open hunk only
bumps the counters. -/
theorem formatAsUnifiedDiff_flushOnTotalCtx_witness :
    ctxCount ((fmtSteps c4ops).flushed.getD 0 ⟨0, 0, 0, 0, 0, 0, []⟩).lines = 3
    ∧ fmtStep initFmt { type := .equal, line := "z" } =
        { initFmt with oldLineNum := initFmt.oldLineNum + 1,
                       newLineNum := initFmt.newLineNum + 1 } :=
  ⟨formatAsUnifiedDiff_flushOnTotalCtx.1 c4ops _ (by decide),
    formatAsUnifiedDiff_flushOnTotalCtx.2.2 initFmt { type := .equal, line := "z" } rfl rfl⟩

/-! Claim C7. -/

/-- The stored buffer of an id (empty when untracked). -/
def bufferOf (tr : Tracker) (id : String) : List String :=
  ((lookupState tr.states id).map (fun st => st.outputBuffer)).getD []

/-- The armed timer of an id (none when untracked). -/
def timerOf (tr : Tracker) (id : String) : Option (Nat × Nat) :=
  ((lookupState tr.states id).map (fun st => st.idleTimer)).getD none

theorem processOutput_noPattern (det : Detector) (tr : Tracker) (id : String)
    (aiType : AIType) (output : String) (now : Nat)
    (hni : det.detect aiType output ≠ .idle)
    (hnw : det.detectFromBuffer aiType (nextBuffer (bufferOf tr id) output) ≠ .waiting) :
    ∃ lu, (processOutput det tr id aiType output now).states =
        setState tr.states id
          { status := .working, lastUpdate := lu,
            idleTimer := some (tr.nextTimer, IDLE_TIMEOUT_MS),
            outputBuffer := nextBuffer (bufferOf tr id) output }
      ∧ (processOutput det tr id aiType output now).nextTimer = tr.nextTimer + 1
      ∧ ((processOutput det tr id aiType output now).events = tr.events
          ∨ (processOutput det tr id aiType output now).events = tr.events ++ [(id, .working)]) := by
  cases hl : lookupState tr.states id with
  | none =>
    simp only [processOutput, hl, bufferOf, Option.map_none', Option.getD_none] at hnw ⊢
    rw [if_neg hni, if_neg hnw]
    split
    · exact ⟨now, rfl, rfl, Or.inr rfl⟩
    · rename_i hw
      simp at hw
  | some st =>
    simp only [processOutput, hl, bufferOf, Option.map_some', Option.getD_some] at hnw ⊢
    rw [if_neg hni, if_neg hnw]
    split
    · exact ⟨now, rfl, rfl, Or.inr rfl⟩
    · rename_i hw
      have hst : st.status = .working := not_not.mp hw
      exact ⟨st.lastUpdate, by rw [hst], rfl, Or.inl rfl⟩

theorem processOutput_frame (det : Detector) (tr : Tracker) (id id2 : String)
    (aiType : AIType) (output : String) (now : Nat) (h : id ≠ id2) :
    lookupState (processOutput det tr id2 aiType output now).states id =
      lookupState tr.states id := by
  simp only [processOutput]
  split
  · split <;> simp [lookupState_setState_other _ _ _ _ h]
  split
  · split <;> simp [lookupState_setState_other _ _ _ _ h]
  split <;> simp [lookupState_setState_other _ _ _ _ h]

theorem lookupState_clear_other {α : Type} (m : List (String × α)) (id id2 : String)
    (h : id ≠ id2) :
    lookupState (m.filter (fun p => !decide (p.1 = id2))) id = lookupState m id := by
  induction m with
  | nil => simp [lookupState]
  | cons p rest ih =>
    obtain ⟨k, v⟩ := p
    by_cases hk : k = id2
    · subst hk
      have : ¬ (k = id) := fun hh => h hh.symm
      simpa [lookupState, List.filter_cons, this] using ih
    · by_cases hk2 : k = id
      · subst hk2
        simp [lookupState, List.filter_cons, hk]
      · simpa [lookupState, List.filter_cons, hk, hk2] using ih

theorem fireTimer_clear (tr : Tracker) (id : String) (gen now : Nat) :
    fireTimer (clear tr id) id gen now = none := by
  simp [fireTimer, clear, lookupState_clear]

theorem fireTimer_after_processOutput (det : Detector) (tr : Tracker) (id : String)
    (aiType : AIType) (output : String) (now gen now3 : Nat) (hgen : gen ≠ tr.nextTimer) :
    fireTimer (processOutput det tr id aiType output now) id gen now3 = none := by
  simp only [processOutput]
  split
  · split
    · simp [fireTimer, lookupState_setState_self]
    · simp [fireTimer, lookupState_setState_self]
  split
  · split
    · simp [fireTimer, lookupState_setState_self]
    · simp [fireTimer, lookupState_setState_self]
  split
  · simp [fireTimer, lookupState_setState_self, Ne.symm hgen]
  · simp [fireTimer, lookupState_setState_self, Ne.symm hgen]

/-- C7: after a processOutput call whose chunk is not classified idle and
whose updated buffer is not classified waiting, the id is working with a
fresh 2000 ms timer armed; firing that timer (with no intervening call for
the id) transitions the status to idle exactly once — one change event, and
the timer cannot fire again; any later processOutput or clear call for the
id cancels the pending timer, so the decay cannot fire from it; calls for
other ids do not disturb the id's state. -/
theorem processOutput_decay (det : Detector) (tr : Tracker) (id : String)
    (aiType : AIType) (output : String) (now : Nat)
    (hni : det.detect aiType output ≠ .idle)
    (hnw : det.detectFromBuffer aiType (nextBuffer (bufferOf tr id) output) ≠ .waiting) :
    getStatus (processOutput det tr id aiType output now) id = .working
    ∧ timerOf (processOutput det tr id aiType output now) id =
        some (tr.nextTimer, IDLE_TIMEOUT_MS)
    ∧ IDLE_TIMEOUT_MS = 2000
    ∧ (∀ now2 now3, ∃ tr2,
        fireTimer (processOutput det tr id aiType output now) id tr.nextTimer now2 = some tr2
        ∧ getStatus tr2 id = .idle
        ∧ tr2.events = (processOutput det tr id aiType output now).events ++ [(id, .idle)]
        ∧ fireTimer tr2 id tr.nextTimer now3 = none)
    ∧ (∀ aiType2 output2 now2 now3,
        fireTimer
          (processOutput det (processOutput det tr id aiType output now) id aiType2 output2 now2)
          id tr.nextTimer now3 = none)
    ∧ (∀ now3,
        fireTimer (clear (processOutput det tr id aiType output now) id) id tr.nextTimer now3 = none)
    ∧ (∀ id2, id ≠ id2 → ∀ aiType2 output2 now2,
        lookupState
            (processOutput det (processOutput det tr id aiType output now) id2 aiType2 output2 now2).states
            id
          = lookupState (processOutput det tr id aiType output now).states id) := by
  obtain ⟨lu, hstates, hnext, hevents⟩ :=
    processOutput_noPattern det tr id aiType output now hni hnw
  set tr1 := processOutput det tr id aiType output now with htr1
  have hlook : lookupState tr1.states id = some
      { status := .working, lastUpdate := lu,
        idleTimer := some (tr.nextTimer, IDLE_TIMEOUT_MS),
        outputBuffer := nextBuffer (bufferOf tr id) output } := by
    rw [hstates]
    exact lookupState_setState_self tr.states id _
  refine ⟨?_, ?_, rfl, ?_, ?_, fun now3 => fireTimer_clear tr1 id tr.nextTimer now3, ?_⟩
  · simp [getStatus, hlook]
  · simp [timerOf, hlook]
  · intro now2 now3
    refine ⟨{ tr1 with
        states := setState tr1.states id
          { status := .idle, lastUpdate := now2, idleTimer := none,
            outputBuffer := nextBuffer (bufferOf tr id) output },
        events := tr1.events ++ [(id, .idle)] }, ?_, ?_, ?_, ?_⟩
    · simp [fireTimer, hlook]
    · simp [getStatus, lookupState_setState_self]
    · simp
    · simp [fireTimer, lookupState_setState_self]
  · intro aiType2 output2 now2 now3
    exact fireTimer_after_processOutput det tr1 id aiType2 output2 now2 tr.nextTimer now3
      (by omega)
  · intro id2 hne aiType2 output2 now2
    exact processOutput_frame det tr1 id id2 aiType2 output2 now2 hne

/-- Witness for C7: unrecognized output on a fresh tracker arms the 2000 ms
timer; firing it yields the single working-to-idle decay event and the timer
cannot fire twice. -/
theorem processOutput_decay_witness :
    getStatus (processOutput terminalStatusDetector emptyTracker "t1" .claude "Some output" 0) "t1"
      = .working
    ∧ timerOf (processOutput terminalStatusDetector emptyTracker "t1" .claude "Some output" 0) "t1"
      = some (emptyTracker.nextTimer, IDLE_TIMEOUT_MS)
    ∧ (∃ tr2,
        fireTimer (processOutput terminalStatusDetector emptyTracker "t1" .claude "Some output" 0)
          "t1" emptyTracker.nextTimer 5 = some tr2
        ∧ getStatus tr2 "t1" = .idle
        ∧ tr2.events =
            (processOutput terminalStatusDetector emptyTracker "t1" .claude "Some output" 0).events
              ++ [("t1", .idle)]
        ∧ fireTimer tr2 "t1" emptyTracker.nextTimer 6 = none) := by
  have h := processOutput_decay terminalStatusDetector emptyTracker "t1" .claude "Some output" 0
    (by decide) (by decide)
  exact ⟨h.1, h.2.1, h.2.2.2.1 5 6⟩

/-! Claim C1. -/

/-- Lines carried by the equal and delete entries, in order (the old side of
the operation sequence). -/
def entryOldLines (es : List DiffEntry) : List String :=
  es.filterMap (fun e =>
    match e.type with
    | .insert => none
    | _ => some e.line)

/-- Lines carried by the equal and insert entries, in order (the new side). -/
def entryNewLines (es : List DiffEntry) : List String :=
  es.filterMap (fun e =>
    match e.type with
    | .delete => none
    | _ => some e.line)

/-- Lines carried by the equal entries, in order. -/
def entryEqualLines (es : List DiffEntry) : List String :=
  es.filterMap (fun e =>
    match e.type with
    | .equal => some e.line
    | _ => none)

theorem lcsBackR_sublist (ra rb : List String) :
    (lcsBackR ra rb).Sublist ra.reverse ∧ (lcsBackR ra rb).Sublist rb.reverse := by
  induction ra, rb using lcsBackR.induct with
  | case1 rb => simp [lcsBackR]
  | case2 a ra => simp [lcsBackR]
  | case3 ra b rb ih =>
    rw [lcsBackR, if_pos rfl]
    constructor
    · rw [List.reverse_cons]
      exact List.Sublist.append ih.1 (List.Sublist.refl [b])
    · rw [List.reverse_cons]
      exact List.Sublist.append ih.2 (List.Sublist.refl [b])
  | case4 a ra b rb hne hgt ih =>
    rw [lcsBackR, if_neg hne, if_pos hgt]
    constructor
    · rw [List.reverse_cons]
      exact ih.1.trans (List.sublist_append_left ra.reverse [a])
    · exact ih.2
  | case5 a ra b rb hne hle ih =>
    rw [lcsBackR, if_neg hne, if_neg hle]
    constructor
    · exact ih.1
    · rw [List.reverse_cons]
      exact ih.2.trans (List.sublist_append_left rb.reverse [b])

theorem lcsBackR_length (ra rb : List String) :
    (lcsBackR ra rb).length = lcsLenR ra rb := by
  induction ra, rb using lcsBackR.induct with
  | case1 rb => simp [lcsBackR, lcsLenR]
  | case2 a ra => simp [lcsBackR, lcsLenR]
  | case3 ra b rb ih =>
    rw [lcsBackR, if_pos rfl, lcsLenR, if_pos rfl]
    simp [ih]
  | case4 a ra b rb hne hgt ih =>
    rw [lcsBackR, if_neg hne, if_pos hgt, lcsLenR, if_neg hne]
    rw [ih]
    exact (Nat.max_eq_left (Nat.le_of_lt hgt)).symm
  | case5 a ra b rb hne hle ih =>
    rw [lcsBackR, if_neg hne, if_neg hle, lcsLenR, if_neg hne]
    rw [ih]
    exact (Nat.max_eq_right (Nat.le_of_not_lt hle)).symm

theorem lcsLenR_ge (ra rb : List String) :
    ∀ l : List String, l.Sublist ra → l.Sublist rb → l.length ≤ lcsLenR ra rb := by
  induction ra, rb using lcsLenR.induct with
  | case1 rb =>
    intro l h1 _
    rw [List.sublist_nil.mp h1]
    simp
  | case2 a ra =>
    intro l _ h2
    rw [List.sublist_nil.mp h2]
    simp
  | case3 ra b rb ih =>
    intro l h1 h2
    rw [lcsLenR, if_pos rfl]
    cases l with
    | nil => simp
    | cons x l' =>
      simp only [List.length_cons]
      rcases List.sublist_cons_iff.mp h1 with hx1 | ⟨r, hr, hr1⟩
      · rcases List.sublist_cons_iff.mp h2 with hx2 | ⟨r2, hr2, hr22⟩
        · have := ih (x :: l') hx1 hx2
          simp only [List.length_cons] at this
          omega
        · injection hr2 with hh tt
          subst tt
          have hsubra : l'.Sublist ra := (List.sublist_cons_self x l').trans hx1
          have := ih l' hsubra hr22
          omega
      · injection hr with hh tt
        subst tt
        have hsubrb : l'.Sublist rb := by
          rcases List.sublist_cons_iff.mp h2 with hx2 | ⟨r2, hr2, hr22⟩
          · exact (List.sublist_cons_self x l').trans hx2
          · injection hr2 with hh2 tt2
            rw [tt2]
            exact hr22
        have := ih l' hr1 hsubrb
        omega
  | case4 a ra b rb hne ih1 ih2 =>
    intro l h1 h2
    rw [lcsLenR, if_neg hne]
    cases l with
    | nil => simp
    | cons x l' =>
      rcases List.sublist_cons_iff.mp h1 with hx1 | ⟨r, hr, hr1⟩
      · have := ih1 (x :: l') hx1 h2
        omega
      · injection hr with hh tt
        subst tt
        rcases List.sublist_cons_iff.mp h2 with hx2 | ⟨r2, hr2, hr22⟩
        · have := ih2 (x :: l') h1 hx2
          omega
        · injection hr2 with hh2 tt2
          exact absurd (hh ▸ hh2 : a = b) hne

theorem longestCommonSubsequence_spec (a b : List String) :
    (longestCommonSubsequence a b).Sublist a
    ∧ (longestCommonSubsequence a b).Sublist b
    ∧ ∀ l : List String, l.Sublist a → l.Sublist b →
        l.length ≤ (longestCommonSubsequence a b).length := by
  have hsub := lcsBackR_sublist a.reverse b.reverse
  have hlen := lcsBackR_length a.reverse b.reverse
  refine ⟨?_, ?_, ?_⟩
  · have := hsub.1
    rwa [List.reverse_reverse] at this
  · have := hsub.2
    rwa [List.reverse_reverse] at this
  · intro l hla hlb
    have := lcsLenR_ge a.reverse b.reverse l.reverse hla.reverse hlb.reverse
    rw [List.length_reverse] at this
    rw [longestCommonSubsequence, hlen]
    exact this

theorem walk_entryOldLines (olds news lcs : List String) :
    entryOldLines (computeDiffWalk olds news lcs) = olds := by
  induction olds, news, lcs using computeDiffWalk.induct with
  | case1 os cs n ns ih => simpa [computeDiffWalk, entryOldLines] using ih
  | case2 os c cs n ns hnc ih => simpa [computeDiffWalk, entryOldLines, hnc] using ih
  | case3 os c cs ih => simpa [computeDiffWalk, entryOldLines] using ih
  | case4 o os news c cs hoc ih =>
    rw [computeDiffWalk.eq_def]
    simp only
    rw [if_neg hoc]
    simpa [entryOldLines] using ih
  | case5 o os news ih => simpa [computeDiffWalk, entryOldLines] using ih
  | case6 n ns lcs ih => simpa [computeDiffWalk, entryOldLines] using ih
  | case7 lcs => simp [computeDiffWalk, entryOldLines]

theorem walk_entryNewLines (olds news lcs : List String) :
    entryNewLines (computeDiffWalk olds news lcs) = news := by
  induction olds, news, lcs using computeDiffWalk.induct with
  | case1 os cs n ns ih => simpa [computeDiffWalk, entryNewLines] using ih
  | case2 os c cs n ns hnc ih => simpa [computeDiffWalk, entryNewLines, hnc] using ih
  | case3 os c cs ih => simpa [computeDiffWalk, entryNewLines] using ih
  | case4 o os news c cs hoc ih =>
    rw [computeDiffWalk.eq_def]
    simp only
    rw [if_neg hoc]
    simpa [entryNewLines] using ih
  | case5 o os news ih => simpa [computeDiffWalk, entryNewLines] using ih
  | case6 n ns lcs ih => simpa [computeDiffWalk, entryNewLines] using ih
  | case7 lcs => simp [computeDiffWalk, entryNewLines]

theorem walk_entryEqualLines (olds news lcs : List String) :
    lcs.Sublist olds → lcs.Sublist news →
      entryEqualLines (computeDiffWalk olds news lcs) = lcs := by
  induction olds, news, lcs using computeDiffWalk.induct with
  | case1 os cs n ns ih =>
    intro h1 h2
    have hcs1 : cs.Sublist os := by
      rcases List.sublist_cons_iff.mp h1 with hx | ⟨r, hr, hrr⟩
      · exact (List.sublist_cons_self n cs).trans hx
      · injection hr with _ tt
        rw [tt]
        exact hrr
    have hcs2 : cs.Sublist ns := by
      rcases List.sublist_cons_iff.mp h2 with hx | ⟨r, hr, hrr⟩
      · exact (List.sublist_cons_self n cs).trans hx
      · injection hr with _ tt
        rw [tt]
        exact hrr
    simpa [computeDiffWalk, entryEqualLines] using ih hcs1 hcs2
  | case2 os c cs n ns hnc ih =>
    intro h1 h2
    have h2' : (c :: cs).Sublist ns := by
      rcases List.sublist_cons_iff.mp h2 with hx | ⟨r, hr, hrr⟩
      · exact hx
      · exfalso
        injection hr with hh _
        exact hnc hh.symm
    simpa [computeDiffWalk, entryEqualLines, hnc] using ih h1 h2'
  | case3 os c cs ih =>
    intro _ h2
    exact absurd (List.sublist_nil.mp h2) (by simp)
  | case4 o os news c cs hoc ih =>
    intro h1 h2
    have h1' : (c :: cs).Sublist os := by
      rcases List.sublist_cons_iff.mp h1 with hx | ⟨r, hr, hrr⟩
      · exact hx
      · exfalso
        injection hr with hh _
        exact hoc hh.symm
    rw [computeDiffWalk.eq_def]
    simp only
    rw [if_neg hoc]
    simpa [entryEqualLines] using ih h1' h2
  | case5 o os news ih =>
    intro _ _
    simpa [computeDiffWalk, entryEqualLines] using ih (by simp) (by simp)
  | case6 n ns lcs ih =>
    intro h1 h2
    have hl : lcs = [] := List.sublist_nil.mp h1
    subst hl
    simpa [computeDiffWalk, entryEqualLines] using ih (by simp) (by simp)
  | case7 lcs =>
    intro h1 _
    have hl : lcs = [] := List.sublist_nil.mp h1
    simp [computeDiffWalk, entryEqualLines, hl]

/-- C1: computeDiff (computeLineDiff) emits a left-to-right operation
sequence transforming oldLines into newLines: the equal/delete entries list
exactly oldLines, the equal/insert entries list exactly newLines (equality
is exact per-line string equality), and the equal entries form a longest
common subsequence of the two inputs. -/
theorem computeDiff_spec (a b : List String) :
    entryOldLines (computeDiff a b) = a
    ∧ entryNewLines (computeDiff a b) = b
    ∧ (entryEqualLines (computeDiff a b)).Sublist a
    ∧ (entryEqualLines (computeDiff a b)).Sublist b
    ∧ ∀ l : List String, l.Sublist a → l.Sublist b →
        l.length ≤ (entryEqualLines (computeDiff a b)).length := by
  obtain ⟨hs1, hs2, hmax⟩ := longestCommonSubsequence_spec a b
  have heq : entryEqualLines (computeDiff a b) = longestCommonSubsequence a b :=
    walk_entryEqualLines a b (longestCommonSubsequence a b) hs1 hs2
  refine ⟨walk_entryOldLines a b _, walk_entryNewLines a b _, ?_, ?_, ?_⟩
  · rw [heq]
    exact hs1
  · rw [heq]
    exact hs2
  · intro l hla hlb
    rw [heq]
    exact hmax l hla hlb

/-- Witness for C1 at a concrete pair of inputs, instantiating the longest
common subsequence bound at a concrete common subsequence. -/
theorem computeDiff_spec_witness :
    entryOldLines (computeDiff ["a", "b", "c"] ["a", "x", "c"]) = ["a", "b", "c"]
    ∧ entryNewLines (computeDiff ["a", "b", "c"] ["a", "x", "c"]) = ["a", "x", "c"]
    ∧ (["a", "c"] : List String).length ≤
        (entryEqualLines (computeDiff ["a", "b", "c"] ["a", "x", "c"])).length :=
  ⟨(computeDiff_spec ["a", "b", "c"] ["a", "x", "c"]).1,
    (computeDiff_spec ["a", "b", "c"] ["a", "x", "c"]).2.1,
    (computeDiff_spec ["a", "b", "c"] ["a", "x", "c"]).2.2.2.2 ["a", "c"]
      (by decide) (by decide)⟩

/-! Claim C2. -/

theorem computeDiff_nil_left (L : List String) :
    computeDiff [] L = L.map (fun l => { type := .insert, line := l }) := by
  have hw : ∀ M : List String, computeDiffWalk [] M [] =
      M.map (fun l => { type := .insert, line := l }) := by
    intro M
    induction M with
    | nil => simp [computeDiffWalk]
    | cons n ns ih =>
      rw [computeDiffWalk.eq_def]
      simpa using ih
  unfold computeDiff
  rw [show longestCommonSubsequence [] L = [] from by simp [longestCommonSubsequence, lcsBackR]]
  exact hw L

theorem fmtStep_insert (s : FmtState) (l : String) (hs : s.hunkStart ≠ -1)
    (ho : s.hunkLines ≠ []) :
    fmtStep s { type := .insert, line := l } =
      { s with hunkLines := s.hunkLines ++ ["+" ++ l],
               newCount := s.newCount + 1, newLineNum := s.newLineNum + 1 } := by
  unfold fmtStep
  simp only
  rw [if_neg hs, if_neg ho]

theorem fmt_insert_run (M : List String) :
    ∀ s : FmtState, s.hunkStart ≠ -1 → s.hunkLines ≠ [] →
      (M.map (fun l => ({ type := .insert, line := l } : DiffEntry))).foldl fmtStep s =
        { s with hunkLines := s.hunkLines ++ M.map (fun l => "+" ++ l),
                 newCount := s.newCount + M.length,
                 newLineNum := s.newLineNum + M.length } := by
  induction M with
  | nil =>
    intro s _ _
    simp
  | cons l M ih =>
    intro s hs ho
    simp only [List.map_cons, List.foldl_cons]
    rw [fmtStep_insert s l hs ho]
    rw [ih _ (by exact hs) (by simp)]
    simp [List.append_assoc]
    omega

theorem format_inserts (l0 : String) (L : List String) :
    formatAsUnifiedDiff ((l0 :: L).map (fun l => { type := .insert, line := l })) =
      "@@ -1,0 +1," ++ natToStr (L.length + 1) ++ " @@\n" ++
        joinNl ((l0 :: L).map (fun l => "+" ++ l)) ++ "\n" := by
  unfold formatAsUnifiedDiff fmtRun fmtSteps
  simp only [List.map_cons, List.foldl_cons]
  rw [show fmtStep initFmt { type := .insert, line := l0 } =
      { initFmt with hunkStart := 1, hunkLines := ["+" ++ l0], newCount := 1, newLineNum := 2,
                     openTrue := some (1, 1) } from rfl]
  rw [fmt_insert_run L
      ({ initFmt with hunkStart := 1, hunkLines := ["+" ++ l0], newCount := 1, newLineNum := 2,
                      openTrue := some (1, 1) })
      (by exact (by decide : (1 : Int) ≠ -1)) (by simp)]
  unfold flushFmt
  rw [if_neg (by simp)]
  rw [show (1 : Nat) + L.length = L.length + 1 from Nat.add_comm 1 L.length]
  rfl

/-- C2 counterexample: for L = ["a"], the round trip yields one hunk whose
oldStart is 1 (the claim says 0) and whose lines include a context line (the
claim says all lines are additions): the rendered text carries the shared
start 1 on both header sides, and the final newline appended by the renderer
makes the splitter produce a trailing empty line that the parser classifies
as context. -/
theorem c2_counterexample :
    (parseUnifiedDiff "f" (formatAsUnifiedDiff (computeDiff [] ["a"]))).hunks.map
        (fun h => h.oldStart) = [1] ∧
    ∃ h ∈ (parseUnifiedDiff "f" (formatAsUnifiedDiff (computeDiff [] ["a"]))).hunks,
      ∃ l ∈ h.lines, l.type = DiffLineType.context := by
  rw [computeDiff_nil_left]
  decide

theorem splitNl_append_nl (a b : List Char) (h : '\n' ∉ a) :
    splitNl (a ++ '\n' :: b) = a :: splitNl b := by
  induction a with
  | nil => simp [splitNl]
  | cons c cs ih =>
    have hc : c ≠ '\n' := fun h1 => h (by simp [h1])
    have hcs : '\n' ∉ cs := fun h1 => h (by simp [h1])
    simp only [List.cons_append, splitNl, if_neg hc, List.append_eq]
    rw [ih hcs]

theorem splitNl_joinNlL (xs : List (List Char)) (b : List Char) (hne : xs ≠ [])
    (h : ∀ x ∈ xs, '\n' ∉ x) :
    splitNl (joinNlL xs ++ '\n' :: b) = xs ++ splitNl b := by
  induction xs with
  | nil => exact absurd rfl hne
  | cons x t ih =>
    cases t with
    | nil =>
      simp only [joinNlL]
      rw [splitNl_append_nl x b (h x (by simp))]
      rfl
    | cons y t2 =>
      simp only [joinNlL, List.append_assoc, List.cons_append]
      rw [splitNl_append_nl x _ (h x (by simp))]
      rw [ih (by simp) (fun z hz => h z (by simp [hz]))]
      rfl

theorem natToStrAux_digits (fuel : Nat) : ∀ n acc, (∀ c ∈ acc, c.isDigit = true) →
    ∀ c ∈ natToStrAux fuel n acc, c.isDigit = true := by
  have hdig : ∀ m, m < 10 → (Nat.digitChar m).isDigit = true := by decide
  induction fuel with
  | zero =>
    intro n acc hacc
    simpa [natToStrAux] using hacc
  | succ f ih =>
    intro n acc hacc
    simp only [natToStrAux]
    split
    · exact hacc
    · apply ih
      intro c hc
      rcases List.mem_cons.mp hc with h1 | h1
      · rw [h1]
        exact hdig _ (Nat.mod_lt _ (by norm_num))
      · exact hacc c h1

theorem natToStr_digits (n : Nat) : ∀ c ∈ (natToStr n).data, c.isDigit = true := by
  intro c hc
  unfold natToStr at hc
  split at hc
  · have h0 : c = '0' := by simpa using hc
    rw [h0]
    rfl
  · exact natToStrAux_digits n n [] (by simp) c hc

theorem isDigit_ne_nl (c : Char) (h : c.isDigit = true) : c ≠ '\n' := by
  intro he
  rw [he] at h
  exact absurd h (by decide)

theorem dropWhile_digits (dd rest : List Char) (h : ∀ c ∈ dd, c.isDigit = true) :
    (dd ++ rest).dropWhile Char.isDigit = rest.dropWhile Char.isDigit := by
  induction dd with
  | nil => rfl
  | cons c t ih =>
    rw [List.cons_append, List.dropWhile_cons, if_pos (h c (by simp))]
    exact ih (fun z hz => h z (by simp [hz]))

theorem hunkHeaderSearch_newFile (dd rest : List Char) (h : ∀ c ∈ dd, c.isDigit = true) :
    hunkHeaderSearch ('@' :: '@' :: ' ' :: '-' :: '1' :: ',' :: '0' :: ' ' :: '+' :: '1' :: ',' ::
        (dd ++ ' ' :: '@' :: '@' :: rest)) = some (1, 1) := by
  have hdw : (dd ++ ' ' :: '@' :: '@' :: rest).dropWhile Char.isDigit =
      ' ' :: '@' :: '@' :: rest := by
    rw [dropWhile_digits dd _ h]
    rfl
  simp only [hunkHeaderSearch, hunkHeaderAt]
  simp only [List.takeWhile_cons, List.dropWhile_cons]
  simp +decide [dropComma, hdw, digitsToNat]

theorem puStep_header (dd : List Char) (h : ∀ c ∈ dd, c.isDigit = true) :
    puStep initPU (String.mk ('@' :: '@' :: ' ' :: '-' :: '1' :: ',' :: '0' :: ' ' :: '+' ::
        '1' :: ',' :: (dd ++ ' ' :: '@' :: '@' :: []))) =
      { created := [{ header := String.mk ('@' :: '@' :: ' ' :: '-' :: '1' :: ',' :: '0' :: ' ' ::
                        '+' :: '1' :: ',' :: (dd ++ ' ' :: '@' :: '@' :: []))
                      oldStart := 1, newStart := 1, lines := [] }]
        curIdx := some 0
        pushes := []
        oldLineNum := 1
        newLineNum := 1
        additions := 0
        deletions := 0 } := by
  simp only [puStep, jsStartsWith, initPU]
  rw [hunkHeaderSearch_newFile dd [] h]
  simp +decide [List.isPrefixOf]

theorem puStep_plus (st : PUState) (i : Nat) (l : String) (hcur : st.curIdx = some i)
    (hpp : jsStartsWith l "++" = false) :
    puStep st ("+" ++ l) =
      { st with
        created := pushLineAt st.created i
          { type := .addition, content := l, newLineNumber := some st.newLineNum }
        newLineNum := st.newLineNum + 1
        additions := st.additions + 1 } := by
  have hdata : ("+" ++ l).data = '+' :: l.data := by
    simp [String.data_append]
  have hpp2 : List.isPrefixOf ['+', '+'] l.data = false := hpp
  simp only [puStep, jsStartsWith, hdata, hcur]
  simp +decide [List.isPrefixOf, hpp2, jsDrop1, strMk_data]

theorem puStep_empty (st : PUState) (i : Nat) (hcur : st.curIdx = some i) :
    puStep st "" =
      { st with
        created := pushLineAt st.created i
          { type := .context, content := "", oldLineNumber := some st.oldLineNum,
            newLineNumber := some st.newLineNum }
        oldLineNum := st.oldLineNum + 1
        newLineNum := st.newLineNum + 1 } := by
  simp only [puStep, jsStartsWith, hcur]
  simp +decide [List.isPrefixOf]

theorem pushLineAt_singleton (h : DiffHunk) (dl : DiffLine) :
    pushLineAt [h] 0 dl = [{ h with lines := h.lines ++ [dl] }] := by
  simp [pushLineAt, List.modify]

theorem puRun_plus (L : List String) :
    ∀ (h : DiffHunk) (p : List Nat) (old nl a d : Nat),
      (∀ l ∈ L, jsStartsWith l "++" = false) →
      (L.map (fun l => "+" ++ l)).foldl puStep
          { created := [h], curIdx := some 0, pushes := p, oldLineNum := old, newLineNum := nl,
            additions := a, deletions := d } =
        { created := [{ h with lines := h.lines ++ newFileAddLines nl L }]
          curIdx := some 0
          pushes := p
          oldLineNum := old
          newLineNum := nl + L.length
          additions := a + L.length
          deletions := d } := by
  induction L with
  | nil =>
    intro h p old nl a d _
    simp [newFileAddLines]
  | cons l L ih =>
    intro h p old nl a d hpp
    simp only [List.map_cons, List.foldl_cons]
    rw [puStep_plus _ 0 l rfl (hpp l (by simp))]
    simp only
    rw [pushLineAt_singleton]
    rw [ih _ p old (nl + 1) (a + 1) d (fun z hz => hpp z (by simp [hz]))]
    simp [newFileAddLines, List.append_assoc]
    omega


theorem mkData (l : List Char) : (String.mk l).data = l := rfl

theorem dropWhile_append_ne (l : List Char) (c : Char) (hc : jsWs c = false) :
    List.dropWhile jsWs (l ++ [c]) ≠ [] := by
  induction l with
  | nil =>
    simp [List.dropWhile, hc]
  | cons a t ih =>
    rw [List.cons_append, List.dropWhile_cons]
    by_cases ha : jsWs a = true
    · rw [if_pos ha]
      exact ih
    · rw [if_neg ha]
      simp

theorem jsTrim_mk_at_ne (X : List Char) : jsTrim (String.mk ('@' :: X)) ≠ "" := by
  unfold jsTrim
  rw [mkData]
  rw [List.dropWhile_cons, if_neg (by decide)]
  intro he
  have hd : ((('@' :: X).reverse.dropWhile jsWs).reverse : List Char) = [] := congrArg String.data he
  rw [List.reverse_eq_nil_iff] at hd
  rw [List.reverse_cons] at hd
  exact dropWhile_append_ne X.reverse '@' (by decide) hd


theorem jsSplitNl_newFile (dd : List Char) (xs : List String) (hdd : ∀ c ∈ dd, c.isDigit = true)
    (hxs : xs ≠ []) (hnl : ∀ x ∈ xs, '\n' ∉ x.data) :
    jsSplitNl (String.mk (('@' :: '@' :: ' ' :: '-' :: '1' :: ',' :: '0' :: ' ' :: '+' :: '1' ::
        ',' :: (dd ++ ' ' :: '@' :: '@' :: [])) ++ '\n' ::
          (joinNlL (xs.map String.data) ++ '\n' :: []))) =
      String.mk ('@' :: '@' :: ' ' :: '-' :: '1' :: ',' :: '0' :: ' ' :: '+' :: '1' :: ',' ::
        (dd ++ ' ' :: '@' :: '@' :: [])) :: (xs ++ [""]) := by
  have hhdr : '\n' ∉ ('@' :: '@' :: ' ' :: '-' :: '1' :: ',' :: '0' :: ' ' :: '+' :: '1' :: ',' ::
      (dd ++ ' ' :: '@' :: '@' :: [])) := by
    intro hm
    simp at hm
    exact isDigit_ne_nl '\n' (hdd '\n' hm) rfl
  have hxs2 : ∀ x ∈ xs.map String.data, '\n' ∉ x := by
    intro x hx
    rcases List.mem_map.mp hx with ⟨s, hs, he⟩
    rw [← he]
    exact hnl s hs
  unfold jsSplitNl
  rw [mkData]
  rw [splitNl_append_nl _ _ hhdr]
  rw [splitNl_joinNlL _ _ (by simpa using hxs) hxs2]
  simp only [splitNl, List.map_append, List.map_cons, List.map_nil, List.map_map]
  rw [show ((fun l => ({ data := l } : String)) ∘ String.data) = id from funext fun s => rfl]
  rw [List.map_id]


/-- C2 (corrected): the new-file round trip parseUnifiedDiff of
formatAsUnifiedDiff (computeDiff [] L), for a non-empty list L of lines that
contain no newline and do not start with "++", yields exactly one hunk --- but
its oldStart is 1, not 0 (the renderer stamps the shared start value 1 on both
header sides), and its lines are the |L| additions followed by one trailing
empty context line, produced because the renderer appends a final newline whose
empty split segment the parser classifies as context; stats.additions equals
|L| as claimed. -/
theorem parse_format_newFile (f l0 : String) (L : List String)
    (hnl : ∀ l ∈ l0 :: L, '\n' ∉ l.data)
    (hpp : ∀ l ∈ l0 :: L, jsStartsWith l "++" = false) :
    parseUnifiedDiff f (formatAsUnifiedDiff (computeDiff [] (l0 :: L))) =
      { file := f
        hunks := [{ header := "@@ -1,0 +1," ++ natToStr (L.length + 1) ++ " @@"
                    oldStart := 1
                    newStart := 1
                    lines := newFileAddLines 1 (l0 :: L) ++
                      [{ type := .context, content := "", oldLineNumber := some 1, newLineNumber := some (L.length + 2) }] }]
        stats := { additions := L.length + 1, deletions := 0 } } := by
  rw [computeDiff_nil_left, format_inserts]
  have hdd := natToStr_digits (L.length + 1)
  have harg : "@@ -1,0 +1," ++ natToStr (L.length + 1) ++ " @@\n" ++
      joinNl ((l0 :: L).map (fun l => "+" ++ l)) ++ "\n" =
      String.mk (('@' :: '@' :: ' ' :: '-' :: '1' :: ',' :: '0' :: ' ' :: '+' :: '1' :: ',' ::
        ((natToStr (L.length + 1)).data ++ ' ' :: '@' :: '@' :: [])) ++ '\n' ::
          (joinNlL (((l0 :: L).map (fun l => "+" ++ l)).map String.data) ++ '\n' :: [])) := by
    apply String.ext
    simp only [String.data_append, joinNl, mkData, List.append_assoc, List.cons_append,
      List.nil_append]
  rw [harg]
  have hx1 : ((l0 :: L).map (fun l => "+" ++ l)) ≠ [] := by simp
  have hx2 : ∀ x ∈ (l0 :: L).map (fun l => "+" ++ l), '\n' ∉ x.data := by
    intro x hx
    rcases List.mem_map.mp hx with ⟨s, hs, he⟩
    rw [← he]
    intro hm
    simp [String.data_append] at hm
    exact hnl s hs hm
  have hne1 : String.mk (('@' :: '@' :: ' ' :: '-' :: '1' :: ',' :: '0' :: ' ' :: '+' :: '1' :: ',' ::
      ((natToStr (L.length + 1)).data ++ ' ' :: '@' :: '@' :: [])) ++ '\n' ::
        (joinNlL (((l0 :: L).map (fun l => "+" ++ l)).map String.data) ++ '\n' :: [])) ≠ "" := by
    intro he
    have h2 := congrArg String.data he
    simp [mkData] at h2
  have hne2 : jsTrim (String.mk (('@' :: '@' :: ' ' :: '-' :: '1' :: ',' :: '0' :: ' ' :: '+' :: '1' :: ',' ::
      ((natToStr (L.length + 1)).data ++ ' ' :: '@' :: '@' :: [])) ++ '\n' ::
        (joinNlL (((l0 :: L).map (fun l => "+" ++ l)).map String.data) ++ '\n' :: []))) ≠ "" :=
    jsTrim_mk_at_ne _
  simp only [parseUnifiedDiff]
  rw [if_neg (by
    simp only [Bool.or_eq_true, decide_eq_true_eq, not_or]
    exact ⟨hne1, hne2⟩)]
  rw [jsSplitNl_newFile _ _ hdd hx1 hx2]
  rw [List.foldl_cons, puStep_header _ hdd]
  rw [List.foldl_append]
  rw [puRun_plus (l0 :: L) _ _ _ _ _ _ hpp]
  simp only [List.foldl_cons, List.foldl_nil]
  rw [puStep_empty _ 0 rfl]
  rw [pushLineAt_singleton]
  have hhead : String.mk ('@' :: '@' :: ' ' :: '-' :: '1' :: ',' :: '0' :: ' ' :: '+' :: '1' :: ',' ::
      ((natToStr (L.length + 1)).data ++ ' ' :: '@' :: '@' :: [])) =
      "@@ -1,0 +1," ++ natToStr (L.length + 1) ++ " @@" := by
    apply String.ext
    simp only [String.data_append, mkData, List.append_assoc, List.cons_append,
      List.nil_append]
  simp only [finalPushes]
  simp [hhead, List.getD]
  omega


theorem parse_format_newFile_witness :
    (∀ l ∈ ["a"], '\n' ∉ l.data) ∧ (∀ l ∈ ["a"], jsStartsWith l "++" = false) ∧
    parseUnifiedDiff "f" (formatAsUnifiedDiff (computeDiff [] ["a"])) =
      { file := "f"
        hunks := [{ header := "@@ -1,0 +1," ++ natToStr 1 ++ " @@"
                    oldStart := 1
                    newStart := 1
                    lines := newFileAddLines 1 ["a"] ++
                      [{ type := .context, content := "", oldLineNumber := some 1, newLineNumber := some 2 }] }]
        stats := { additions := 1, deletions := 0 } } :=
  ⟨by decide, by decide, parse_format_newFile "f" "a" [] (by decide) (by decide)⟩

end CodeSquad
